import Mathlib

/-!
# Verification of the ai-toolkit knowledge-graph core

This file is a shallow embedding, in Lean 4, of the parts of the
`ai_toolkit` Python package that the verified properties refer to:

* `src/ai_toolkit/kb/component.py` / `relationship.py` — the data records
  (we keep the fields the properties inspect: `id`, `name`, `type`,
  `file_path` for components; `id`, `source_id`, `target_id`, `type` for
  relationships.  The `metadata`, line-number and timestamp fields are never
  inspected by any verified property and are omitted from the records).
* `src/ai_toolkit/kb/graph.py` — the `KnowledgeGraph` store.  Python dicts
  are modelled as insertion-ordered association lists (`List (String × α)`),
  matching CPython's guaranteed insertion order; `defaultdict(list)` is
  modelled by `dictAppend`; `list.remove` by `eraseFirst`.  Mutation is
  modelled by explicit state passing, and `raise ValueError` by `Except`.
* `src/ai_toolkit/parser/dependency.py` — `DependencyAnalyzer` (the
  analyzer caches start empty on a fresh analyzer, so the cached methods
  are modelled by their cache-miss computation).
* `src/ai_toolkit/parser/python.py` — `PythonParser`, restricted to the
  syntactic shapes the verified properties quantify over (files whose
  top-level declarations are plain function definitions whose bodies
  contain bare-name call expressions); `uuid.uuid4()` is modelled by a
  fresh-id counter threaded through the parser state.
-/

deriving instance DecidableEq for Except

namespace AIToolkit

/-! ## Python dict / defaultdict model (insertion-ordered association lists) -/

/-- `d[k]` as an `Option`: first binding of key `k`. -/
def dictGet {α : Type} (d : List (String × α)) (k : String) : Option α :=
  match d with
  | [] => none
  | (k', v) :: rest => if k' = k then some v else dictGet rest k

/-- `k in d`. -/
def dictContains {α : Type} (d : List (String × α)) (k : String) : Bool :=
  (dictGet d k).isSome

/-- `d[k] = v`: overwrite in place if the key exists (keeping its position,
as CPython does), otherwise append the new binding at the end. -/
def dictSet {α : Type} (d : List (String × α)) (k : String) (v : α) :
    List (String × α) :=
  match d with
  | [] => [(k, v)]
  | (k', v') :: rest =>
      if k' = k then (k, v) :: rest else (k', v') :: dictSet rest k v

/-- `del d[k]`: drop the first binding of `k`. -/
def dictDelete {α : Type} (d : List (String × α)) (k : String) :
    List (String × α) :=
  match d with
  | [] => []
  | (k', v') :: rest =>
      if k' = k then rest else (k', v') :: dictDelete rest k

/-- `defaultdict(list)`: `d[k].append(v)` — append to the existing bucket in
place, or create the key with a one-element bucket. -/
def dictAppend {α : Type} (d : List (String × List α)) (k : String) (v : α) :
    List (String × List α) :=
  match d with
  | [] => [(k, [v])]
  | (k', vs) :: rest =>
      if k' = k then (k, vs ++ [v]) :: rest else (k', vs) :: dictAppend rest k v

/-- `defaultdict(set)`: `d[k].add(v)` — add to the bucket unless already
present (bucket kept in first-insertion order). -/
def dictAddToSet (d : List (String × List String)) (k : String) (v : String) :
    List (String × List String) :=
  match d with
  | [] => [(k, [v])]
  | (k', vs) :: rest =>
      if k' = k then (k, if v ∈ vs then vs else vs ++ [v]) :: rest
      else (k', vs) :: dictAddToSet rest k v

/-- `list.remove(a)`: drop the first element equal to `a`. -/
def eraseFirst {α : Type} [DecidableEq α] : List α → α → List α
  | [], _ => []
  | x :: xs, a => if x = a then xs else x :: eraseFirst xs a

/-! ## Data model (`component.py`, `relationship.py`) -/

/-- `Component` (fields the verified properties inspect; `id` is assigned at
creation — `uuid.uuid4()` in Python, a fresh-counter string in the parser
embedding, or an explicit string in directly-seeded stores). -/
structure Component where
  name : String
  type : String
  file_path : Option String := none
  id : String
deriving Repr, DecidableEq

/-- `Relationship` (fields the verified properties inspect). -/
structure Relationship where
  source_id : String
  target_id : String
  type : String
  id : String
deriving Repr, DecidableEq

/-! ## Graph store (`kb/graph.py`) -/

/-- `KnowledgeGraph.__init__` state: the component dict, the relationship
list, and the five secondary indexes (all `defaultdict(list)`). -/
structure KnowledgeGraph where
  components : List (String × Component)
  relationships : List Relationship
  component_by_name : List (String × List Component)
  component_by_type : List (String × List Component)
  component_by_path : List (String × List Component)
  outgoing_relationships : List (String × List Relationship)
  incoming_relationships : List (String × List Relationship)
deriving Repr, DecidableEq

/-- A fresh store (no persisted data loaded). -/
def KnowledgeGraph.empty : KnowledgeGraph :=
  { components := [], relationships := [], component_by_name := []
    component_by_type := [], component_by_path := []
    outgoing_relationships := [], incoming_relationships := [] }

/-- `KnowledgeGraph.add_component` (graph.py:120-139): store under
`component.id` (overwriting an existing id), then append the component to
the name, type and (when `file_path` is set) path indexes.  The
already-exists check only logs a warning. -/
def addComponent (g : KnowledgeGraph) (c : Component) : KnowledgeGraph :=
  let g1 := { g with components := dictSet g.components c.id c }
  let g2 := { g1 with component_by_name := dictAppend g1.component_by_name c.name c }
  let g3 := { g2 with component_by_type := dictAppend g2.component_by_type c.type c }
  match c.file_path with
  | some p => { g3 with component_by_path := dictAppend g3.component_by_path p c }
  | none => g3

/-- `KnowledgeGraph.add_relationship` (graph.py:141-167): raise `ValueError`
when either endpoint id is not a stored component; silently return when a
relationship with the same `(source_id, target_id, type)` triple is already
stored; otherwise append the relationship and index it. -/
def addRelationship (g : KnowledgeGraph) (r : Relationship) :
    Except String KnowledgeGraph :=
  if ¬ dictContains g.components r.source_id then
    .error ("Source component " ++ r.source_id ++ " does not exist")
  else if ¬ dictContains g.components r.target_id then
    .error ("Target component " ++ r.target_id ++ " does not exist")
  else if g.relationships.any (fun rel =>
      rel.source_id = r.source_id ∧ rel.target_id = r.target_id ∧
        rel.type = r.type) then
    .ok g
  else
    .ok { g with
      relationships := g.relationships ++ [r]
      outgoing_relationships := dictAppend g.outgoing_relationships r.source_id r
      incoming_relationships := dictAppend g.incoming_relationships r.target_id r }

/-- Helper for `remove_component`'s index maintenance: if the key is present,
remove the first occurrence of the component from its bucket and delete the
key when the bucket becomes empty (graph.py:186-199). -/
def indexRemove (d : List (String × List Component)) (k : String)
    (c : Component) : List (String × List Component) :=
  if dictContains d k then
    let remaining := eraseFirst ((dictGet d k).getD []) c
    if remaining = [] then dictDelete d k
    else dictSet d k remaining
  else d

/-- `KnowledgeGraph.remove_component` (graph.py:169-217): returns `false`
when the id is absent; otherwise removes the component from the three
component indexes, rebuilds the relationship list without edges touching the
id, deletes the id's own outgoing/incoming index entries, deletes the
component, and returns `true`. -/
def removeComponent (g : KnowledgeGraph) (component_id : String) :
    Bool × KnowledgeGraph :=
  match dictGet g.components component_id with
  | none => (false, g)
  | some component =>
    let byName := indexRemove g.component_by_name component.name component
    let byType := indexRemove g.component_by_type component.type component
    let byPath :=
      match component.file_path with
      | some p => indexRemove g.component_by_path p component
      | none => g.component_by_path
    (true,
      { components := dictDelete g.components component_id
        relationships := g.relationships.filter (fun rel =>
          rel.source_id ≠ component_id ∧ rel.target_id ≠ component_id)
        component_by_name := byName
        component_by_type := byType
        component_by_path := byPath
        outgoing_relationships := dictDelete g.outgoing_relationships component_id
        incoming_relationships := dictDelete g.incoming_relationships component_id })

/-- `KnowledgeGraph.get_component` (graph.py:219-229). -/
def getComponent (g : KnowledgeGraph) (component_id : String) : Option Component :=
  dictGet g.components component_id

/-- `KnowledgeGraph.get_component_by_name` (graph.py:231-241). -/
def getComponentByName (g : KnowledgeGraph) (name : String) : List Component :=
  (dictGet g.component_by_name name).getD []

/-- `KnowledgeGraph.get_components_by_type` (graph.py:243-253). -/
def getComponentsByType (g : KnowledgeGraph) (type_name : String) : List Component :=
  (dictGet g.component_by_type type_name).getD []

/-- `KnowledgeGraph.get_components_by_file` (graph.py:255-265). -/
def getComponentsByFile (g : KnowledgeGraph) (file_path : String) : List Component :=
  (dictGet g.component_by_path file_path).getD []

/-- `KnowledgeGraph.get_outgoing_relationships` (graph.py:282-292). -/
def getOutgoingRelationships (g : KnowledgeGraph) (component_id : String) :
    List Relationship :=
  (dictGet g.outgoing_relationships component_id).getD []

/-- `KnowledgeGraph.get_incoming_relationships` (graph.py:294-304). -/
def getIncomingRelationships (g : KnowledgeGraph) (component_id : String) :
    List Relationship :=
  (dictGet g.incoming_relationships component_id).getD []

/-- `KnowledgeGraph.get_all_relationships` (graph.py:400-407). -/
def getAllRelationships (g : KnowledgeGraph) : List Relationship :=
  g.relationships

/-! ## `find_path` (graph.py:348-389)

Breadth-first search over the outgoing-relationship index; the queue holds
`(component_id, path)` pairs where `path` is the list of relationship ids
walked so far, and a node is marked visited when it is pushed.  The `while`
loop is modelled with a fuel parameter; `bfsFuel` is an upper bound on the
number of iterations (each iteration pops one entry, and every push marks a
previously-unvisited id — necessarily a target stored in the outgoing
index — as visited, so the number of queue entries ever created is at most
one plus the number of index targets).  Running out of fuel is modelled as
an error so that every `.ok` result is genuinely the loop's own answer.
`self.components[next_id]` in the path-reconstruction loop can raise
`KeyError` on a corrupted store; that raise is modelled as `.error`. -/

/-- The final-path reconstruction loop (graph.py:371-377): look each walked
relationship id up in the relationship list (skipping ids that are not
found, per the `if rel:` guard) and pair the target component with the
relationship. -/
def reconLoop (g : KnowledgeGraph) :
    List String → List (Component × Relationship) →
    Except String (List (Component × Relationship))
  | [], result => .ok result
  | rel_id :: rest, result =>
    match g.relationships.find? (fun r => r.id == rel_id) with
    | none => reconLoop g rest result
    | some rel =>
      match dictGet g.components rel.target_id with
      | none => .error ("KeyError: " ++ rel.target_id)
      | some c => reconLoop g rest (result ++ [(c, rel)])

/-- One neighbour step of the BFS loop (graph.py:380-387): skip an
already-visited target, otherwise mark it visited and enqueue it with the
extended relationship-id path. -/
def findPathStep (path : List String)
    (acc : List String × List (String × List String)) (rel : Relationship) :
    List String × List (String × List String) :=
  if rel.target_id ∈ acc.1 then acc
  else (acc.1 ++ [rel.target_id], acc.2 ++ [(rel.target_id, path ++ [rel.id])])

/-- The BFS `while` loop of `find_path` (graph.py:366-389). -/
def findPathLoop (g : KnowledgeGraph) (target_id : String) :
    Nat → List String → List (String × List String) →
    Except String (List (Component × Relationship))
  | 0, _, _ => .error "loop bound exhausted"
  | _ + 1, _, [] => .ok []
  | fuel + 1, visited, (current_id, path) :: queue =>
    if current_id = target_id then reconLoop g path []
    else
      let step := (getOutgoingRelationships g current_id).foldl
        (findPathStep path) (visited, queue)
      findPathLoop g target_id fuel step.1 step.2

/-- All target ids stored in the outgoing index (used only to size the BFS
fuel). -/
def allIndexTargets (g : KnowledgeGraph) : List String :=
  ((g.outgoing_relationships.map Prod.snd).flatten).map Relationship.target_id

/-- Fuel bound for the BFS loop of `find_path`. -/
def bfsFuel (g : KnowledgeGraph) : Nat :=
  (allIndexTargets g).length + 2

/-- `KnowledgeGraph.find_path` (graph.py:348-389). -/
def findPath (g : KnowledgeGraph) (source_id target_id : String) :
    Except String (List (Component × Relationship)) :=
  if ¬ dictContains g.components source_id ∨ ¬ dictContains g.components target_id then
    .ok []
  else
    findPathLoop g target_id (bfsFuel g) [source_id] [(source_id, [])]

end AIToolkit

namespace AIToolkit

/-! ## Dependency analyzer (`parser/dependency.py`)

A fresh `DependencyAnalyzer` starts with empty caches, so on a fresh
analyzer `analyze_calls` and `analyze_component_dependencies` reduce to
their cache-miss computation; the embedding models that computation.
`defaultdict(set)` values are modelled as insertion-ordered duplicate-free
lists; the verified statements only depend on membership in those sets, not
on CPython's (hash-dependent) set iteration order, except where a bucket is
a singleton and the order is forced. -/

/-- `DependencyAnalyzer.analyze_calls` (dependency.py:63-87): group the
`calls` relationships by source. -/
def analyzeCalls (g : KnowledgeGraph) : List (String × List String) :=
  ((getAllRelationships g).filter (fun rel => rel.type = "calls")).foldl
    (fun result rel => dictAddToSet result rel.source_id rel.target_id) []

mutual

/-- `DependencyAnalyzer._analyze_dependencies_recursive`
(dependency.py:122-175): skip visited nodes, mark the node visited, stop
past `max_depth`, then walk the type-filtered outgoing relationships (the
`for` loop is `analyzeDependenciesLoop`).  The Python code copies the
visited set before each child call, so siblings share the parent's visited
set but not each other's additions — which immutable state passing models
directly. -/
def analyzeDependenciesRecursive (g : KnowledgeGraph)
    (dependency_types : List String) (max_depth : Nat) (component_id : String)
    (result : List (String × List String)) (visited : List String)
    (current_depth : Nat) : List (String × List String) :=
  if component_id ∈ visited then result
  else
    let visited' := component_id :: visited
    if current_depth > max_depth then result
    else
      let filtered := (getOutgoingRelationships g component_id).filter
        (fun rel => rel.type ∈ dependency_types)
      analyzeDependenciesLoop g dependency_types max_depth filtered result
        visited' current_depth
termination_by (max_depth + 1 - current_depth, 1, 0)

/-- The `for rel in filtered_rels` loop of
`_analyze_dependencies_recursive` (dependency.py:158-175): record the
target under the relationship type and recurse into it while
`current_depth < max_depth`. -/
def analyzeDependenciesLoop (g : KnowledgeGraph)
    (dependency_types : List String) (max_depth : Nat)
    (rels : List Relationship) (result : List (String × List String))
    (visited : List String) (current_depth : Nat) :
    List (String × List String) :=
  match rels with
  | [] => result
  | rel :: rest =>
    let result' := dictAddToSet result rel.type rel.target_id
    let result'' :=
      if h : current_depth < max_depth then
        analyzeDependenciesRecursive g dependency_types max_depth rel.target_id
          result' visited (current_depth + 1)
      else result'
    analyzeDependenciesLoop g dependency_types max_depth rest result'' visited
      current_depth
termination_by (max_depth + 1 - current_depth, 0, rels.length)

end

/-- `DependencyAnalyzer.analyze_component_dependencies`
(dependency.py:89-120) on a fresh analyzer (the memo cache is empty, so the
cache-key lookup misses). -/
def analyzeComponentDependencies (g : KnowledgeGraph) (component_id : String)
    (dependency_types : Option (List String)) (max_depth : Nat) :
    List (String × List String) :=
  let types := dependency_types.getD
    ["imports", "calls", "contains", "inherits", "defined_in"]
  analyzeDependenciesRecursive g types max_depth component_id [] [] 0

/-- The state threaded through `_find_circular_recursive`: the current DFS
`path`, the `visited` set, and the accumulated `results`. -/
abbrev CircState := List String × List String × List (List String)

mutual

/-- `DependencyAnalyzer._find_circular_recursive` (dependency.py:298-335):
return unchanged on a visited node; otherwise push the node on `visited`
and `path`, walk its dependency set (`findCircularLoop`), then backtrack
(`path.pop()`, `visited.remove(current_id)`).  The Python recursion depth
is bounded by the growth of `visited` along the current path, all inner
nodes of which are keys of the dependency map; the fuel parameter carries
that bound explicitly. -/
def findCircularRecursive (deps : List (String × List String))
    (start_id : String) : Nat → String → CircState → CircState
  | 0, _, st => st
  | fuel + 1, current_id, (path, visited, results) =>
    if current_id ∈ visited then (path, visited, results)
    else
      let st := findCircularLoop deps start_id fuel
        ((dictGet deps current_id).getD [])
        (path ++ [current_id], visited ++ [current_id], results)
      (st.1.dropLast, eraseFirst st.2.1 current_id, st.2.2)
termination_by fuel _ _ => (fuel, 0, 0)

/-- The `for dep_id in dependencies.get(current_id, set())` loop of
`_find_circular_recursive` (dependency.py:322-331): closing an edge back to
`start_id` records `path + [start_id]` as a cycle; an unvisited dependency
is explored recursively. -/
def findCircularLoop (deps : List (String × List String)) (start_id : String)
    (fuel : Nat) (dep_ids : List String) (state : CircState) : CircState :=
  match dep_ids, state with
  | [], st => st
  | dep_id :: rest, (path, visited, results) =>
    let st :=
      if dep_id = start_id then (path, visited, results ++ [path ++ [start_id]])
      else if dep_id ∉ visited then
        findCircularRecursive deps start_id fuel dep_id (path, visited, results)
      else (path, visited, results)
    findCircularLoop deps start_id fuel rest st
termination_by (fuel, 1, dep_ids.length)

end

/-- `DependencyAnalyzer.find_circular_dependencies` (dependency.py:281-296):
depth-first search from every source key of the `calls` dependency map,
with a fresh `path`/`visited` per start and a shared result list.  The fuel
`deps.length + 2` dominates the Python recursion depth (the DFS path can
only contain distinct nodes, and every node except possibly the last is a
key of the dependency map). -/
def findCircularDependencies (g : KnowledgeGraph) : List (List String) :=
  let call_deps := analyzeCalls g
  (call_deps.map Prod.fst).foldl
    (fun circular_deps component_id =>
      (findCircularRecursive call_deps component_id (call_deps.length + 2)
        component_id ([], [], circular_deps)).2.2)
    []

/-! ## Python parser (`parser/python.py`)

The verified properties about the parser quantify over files whose
top-level declarations are plain function definitions whose bodies contain
bare-name call expressions (`ast.FunctionDef` nodes containing `ast.Call`
nodes whose `func` is an `ast.Name`), plus files whose content fails
`ast.parse`.  The embedding models exactly the code paths such files reach:

* `Component`/`Relationship` creation consumes a fresh id
  (`uuid.uuid4()` is modelled as an injective fresh-id generator driven by
  a counter in the parser state);
* `_process_function` (python.py:705-769) restricted to those nodes:
  create and add the function component, record the name binding, add the
  module→function `contains` relationship, then `_analyze_function_calls`;
* `_analyze_function_calls` (python.py:807-949) restricted to
  `ast.Name` call targets: emit a `calls` edge immediately when the name is
  bound (swallowing `ValueError` from `add_relationship`), otherwise defer
  the call into `function_calls`;
* `_process_function_calls` (python.py:156-201): replay the deferred
  table, emitting a `calls` edge for every deferred entry whose name is now
  bound (swallowing `ValueError`);
* `parse_file` (python.py:79-154): skip-if-already-analyzed, per-file
  state reset, module-component creation *before* parsing, `SyntaxError`
  caught and turned into a `None` result, the processed-set updated only on
  success;
* `parse_directory` (python.py:49-77): iterate the directory's files,
  collecting the result set (`parse_file` cannot raise for a file
  enumerated by `os.walk`, and any exception would be caught by the
  surrounding `try`).

Exceptions propagating *inside* a parse (Python mutates the graph in
place, so the mutations made before a raise survive it) are modelled by
returning the partial state together with an `Option String` exception. -/

/-- An `ast.FunctionDef` restricted to what the verified properties
inspect: its name and the bare-name call expressions in its body, in
source order. -/
structure FunctionDef where
  name : String
  calls : List String
deriving Repr, DecidableEq

/-- The outcome of `ast.parse` on a file's text: a module whose body is a
list of function definitions, or a `SyntaxError`. -/
inductive FileContent where
  | good : List FunctionDef → FileContent
  | bad : FileContent
deriving Repr, DecidableEq

/-- A Python source file as `parse_file` sees it (the file exists; its
`str(path)` and `path.stem` are precomputed). -/
structure PyFile where
  path : String
  stem : String
  content : FileContent
deriving Repr, DecidableEq

/-- `PythonParser` state: the graph being populated, the per-file
name-binding table, the per-file deferred-call table (callee name → caller
component ids; the line-number and call-metadata payload of each entry is
never inspected by a verified property and is dropped), the processed-file
set, and the fresh-id counter modelling `uuid.uuid4()`. -/
structure ParserState where
  knowledge_graph : KnowledgeGraph
  name_bindings : List (String × String)
  function_calls : List (String × List String)
  analyzed_files : List String
  next_id : Nat
deriving Repr, DecidableEq

/-- Fresh-id generator standing in for `uuid.uuid4()` (injective, so
distinct creations get distinct ids). -/
def freshId (n : Nat) : String :=
  "uuid-" ++ String.mk (List.replicate n 'x')

/-- `_analyze_function_calls` on one bare-name call expression
(python.py:853-867): emit the `calls` edge now when the callee name is
bound (the `ValueError` from `add_relationship` is swallowed,
python.py:942-946), otherwise defer `(name, caller)` into
`function_calls`. -/
def analyzeOneCall (st : ParserState) (function_id : String) (name : String) :
    ParserState :=
  match dictGet st.name_bindings name with
  | some target_id =>
    let rel : Relationship :=
      { source_id := function_id, target_id := target_id, type := "calls"
        id := freshId st.next_id }
    let st := { st with next_id := st.next_id + 1 }
    match addRelationship st.knowledge_graph rel with
    | .ok g => { st with knowledge_graph := g }
    | .error _ => st
  | none =>
    { st with function_calls := dictAppend st.function_calls name function_id }

/-- `_process_function` (python.py:705-769) for a top-level function
definition: add the function component, bind its name, add the
module→function `contains` relationship (not wrapped in a `try`, so a
`ValueError` would propagate), then walk the body's call expressions. -/
def processFunction (module_id : String) (module_path : Option String)
    (d : FunctionDef) (st : ParserState) : ParserState × Option String :=
  let function_component : Component :=
    { name := d.name, type := "function", file_path := module_path
      id := freshId st.next_id }
  let st := { st with
    next_id := st.next_id + 1
    knowledge_graph := addComponent st.knowledge_graph function_component
    name_bindings := dictSet st.name_bindings d.name function_component.id }
  let rel : Relationship :=
    { source_id := module_id, target_id := function_component.id
      type := "contains", id := freshId st.next_id }
  let st := { st with next_id := st.next_id + 1 }
  match addRelationship st.knowledge_graph rel with
  | .error e => (st, some e)
  | .ok g =>
    let st := { st with knowledge_graph := g }
    (d.calls.foldl (fun acc name => analyzeOneCall acc function_component.id name) st,
      none)

/-- `_process_module` (python.py:203-234) for a body of function
definitions, stopping at (and propagating) the first exception. -/
def processModule (module_id : String) (module_path : Option String) :
    List FunctionDef → ParserState → ParserState × Option String
  | [], st => (st, none)
  | d :: rest, st =>
    match processFunction module_id module_path d st with
    | (st', some e) => (st', some e)
    | (st', none) => processModule module_id module_path rest st'

/-- One iteration of the replay loop of `_process_function_calls`
(python.py:163-201): emit a `calls` edge from the recorded caller to the
bucket's resolved target, swallowing `ValueError`. -/
def replayOneCall (target_id : String) (st : ParserState)
    (caller_id : String) : ParserState :=
  let rel : Relationship :=
    { source_id := caller_id, target_id := target_id, type := "calls"
      id := freshId st.next_id }
  let st := { st with next_id := st.next_id + 1 }
  match addRelationship st.knowledge_graph rel with
  | .ok g => { st with knowledge_graph := g }
  | .error _ => st

/-- One deferred-table bucket of `_process_function_calls`: replay every
recorded caller against the resolved target. -/
def replayCalls (st : ParserState) (target_id : String)
    (callers : List String) : ParserState :=
  callers.foldl (replayOneCall target_id) st

/-- One bucket step of `_process_function_calls` (python.py:158-201):
replay the bucket when its callee name is bound, drop it silently
otherwise. -/
def replayBucket (st : ParserState) (entry : String × List String) :
    ParserState :=
  match dictGet st.name_bindings entry.1 with
  | some target_id => replayCalls st target_id entry.2
  | none => st

/-- `_process_function_calls` (python.py:156-201): for every deferred
bucket whose callee name is now bound, replay the recorded callers. -/
def processFunctionCalls (st : ParserState) : ParserState :=
  st.function_calls.foldl replayBucket st

/-- `parse_file` (python.py:79-154): return the stored module for an
already-analyzed path; otherwise reset the per-file state, create and
insert the module component *before* parsing, then either parse and
process the body (marking the file analyzed and returning the module) or
catch the `SyntaxError`/exception and return `None`, keeping every
mutation made so far. -/
def parseFile (st : ParserState) (f : PyFile) : Option Component × ParserState :=
  if f.path ∈ st.analyzed_files then
    ((getComponentsByFile st.knowledge_graph f.path).find?
        (fun c => c.type == "module"), st)
  else
    let st := { st with name_bindings := [], function_calls := [] }
    let module : Component :=
      { name := f.stem, type := "module", file_path := some f.path
        id := freshId st.next_id }
    let st := { st with
      next_id := st.next_id + 1
      knowledge_graph := addComponent st.knowledge_graph module
      name_bindings := dictSet st.name_bindings f.stem module.id }
    match f.content with
    | .bad => (none, st)
    | .good decls =>
      match processModule module.id (some f.path) decls st with
      | (st, some _) => (none, st)
      | (st, none) =>
        let st := processFunctionCalls st
        let st := { st with analyzed_files :=
          if f.path ∈ st.analyzed_files then st.analyzed_files
          else st.analyzed_files ++ [f.path] }
        (some module, st)

/-- One iteration of the `parse_directory` loop body (python.py:66-74):
parse the file and record its path in the result set (`parse_file` returns
normally on every file `os.walk` lists, so the `except` branch of the loop
body is never taken). -/
def parseDirectoryStep (acc : List String × ParserState) (f : PyFile) :
    List String × ParserState :=
  let res := parseFile acc.2 f
  (if f.path ∈ acc.1 then acc.1 else acc.1 ++ [f.path], res.2)

/-- `parse_directory` (python.py:49-77) over the directory's `.py`
files. -/
def parseDirectory (st : ParserState) (files : List PyFile) :
    List String × ParserState :=
  files.foldl parseDirectoryStep ([], st)

/-! ## Derived observations used by the theorems -/

/-- Number of stored relationships with a given
`(source_id, target_id, type)` triple. -/
def countTriple (g : KnowledgeGraph) (s t k : String) : Nat :=
  (g.relationships.filter (fun rel =>
    rel.source_id = s ∧ rel.target_id = t ∧ rel.type = k)).length

/-- Direct-seeding helper (the spec's "test/tooling code directly for
seeding" path): call `add_relationship` and keep the old store if it
raises.  The theorems that use it also assert that the call returned
`.ok`, so the error branch is never what they rely on. -/
def seedRelationship (g : KnowledgeGraph) (r : Relationship) : KnowledgeGraph :=
  match addRelationship g r with
  | .ok g' => g'
  | .error _ => g

/-! ## Concrete seeded stores used by counterexample and bug theorems -/

/-- Function component `a` (explicit id, as seeded by test/tooling code). -/
def compA : Component := { name := "a", type := "function", id := "a" }

/-- Function component `b`. -/
def compB : Component := { name := "b", type := "function", id := "b" }

/-- Function component `c`. -/
def compC : Component := { name := "c", type := "function", id := "c" }

/-- `calls` edge a→b. -/
def relAB : Relationship :=
  { source_id := "a", target_id := "b", type := "calls", id := "rab" }

/-- `calls` edge b→c. -/
def relBC : Relationship :=
  { source_id := "b", target_id := "c", type := "calls", id := "rbc" }

/-- `calls` edge c→a. -/
def relCA : Relationship :=
  { source_id := "c", target_id := "a", type := "calls", id := "rca" }

/-- Store holding components a, b and the single `calls` edge a→b. -/
def graphAB : KnowledgeGraph :=
  seedRelationship (addComponent (addComponent .empty compA) compB) relAB

/-- Store holding components a, b, c and the chain a→b→c of `calls`
edges. -/
def graphChain : KnowledgeGraph :=
  seedRelationship
    (seedRelationship
      (addComponent (addComponent (addComponent .empty compA) compB) compC)
      relAB)
    relBC

/-- Function component `d`. -/
def compD : Component := { name := "d", type := "function", id := "d" }

/-- `calls` edge c→d. -/
def relCD : Relationship :=
  { source_id := "c", target_id := "d", type := "calls", id := "rcd" }

/-- Store holding components a, b, c, d and the chain a→b→c→d of `calls`
edges. -/
def graphChain4 : KnowledgeGraph :=
  seedRelationship (seedRelationship (seedRelationship
    (addComponent (addComponent (addComponent (addComponent .empty
      compA) compB) compC) compD)
    relAB) relBC) relCD

/-- Store holding components a, b, c and the `calls` cycle a→b→c→a. -/
def graphCycle : KnowledgeGraph :=
  seedRelationship (seedRelationship (seedRelationship
    (addComponent (addComponent (addComponent .empty compA) compB) compC)
    relAB) relBC) relCA

/-- A store whose `calls` relationships form exactly the directed cycle
a→b→c→a over three function components (seeded directly). -/
def cycleStore (a b c : String) : KnowledgeGraph :=
  seedRelationship (seedRelationship (seedRelationship
    (addComponent (addComponent (addComponent .empty
      { name := a, type := "function", id := a })
      { name := b, type := "function", id := b })
      { name := c, type := "function", id := c })
    { source_id := a, target_id := b, type := "calls", id := "r1" })
    { source_id := b, target_id := c, type := "calls", id := "r2" })
    { source_id := c, target_id := a, type := "calls", id := "r3" }

/-- The bucket a key holds in a `defaultdict(set)`-style map (empty for a
missing key, as `result[k]` observes after the call). -/
def bucketOf (d : List (String × List String)) (k : String) : List String :=
  (dictGet d k).getD []

/-- `EdgePath g x ids y`: `ids` is the list of relationship ids of a walk
from `x` to `y` over the outgoing-relationship index — the edge relation
`find_path`'s BFS explores and records in its queue payloads. -/
inductive EdgePath (g : KnowledgeGraph) : String → List String → String → Prop
  | refl (x) : EdgePath g x [] x
  | step (x z : String) (r : Relationship) (rest : List String) :
      r ∈ getOutgoingRelationships g x →
      EdgePath g r.target_id rest z →
      EdgePath g x (r.id :: rest) z

/-- How many outgoing-index targets are not yet visited (together with the
queue length, this bounds the remaining BFS iterations). -/
def countUnvisited (g : KnowledgeGraph) (V : List String) : Nat :=
  ((allIndexTargets g).filter (fun x => x ∉ V)).length

/-- The invariant the BFS neighbour fold maintains, relative to the entry
`(v, q)` just popped: queue entries carry valid minimal paths from the
source `s` with lengths in `[q.length, q.length + 1]` and nondecreasing,
every visited node is queued, successor-closed or equal to `v`, and the
target `t`, once visited, stays queued. -/
structure BfsMid (g : KnowledgeGraph) (s t v : String) (q : List String)
    (V : List String) (Q : List (String × List String)) : Prop where
  entries_path : ∀ e ∈ Q, EdgePath g s e.2 e.1
  entries_vis : ∀ e ∈ Q, e.1 ∈ V
  start_vis : s ∈ V
  sorted : Q.Pairwise (fun e1 e2 => e1.2.length ≤ e2.2.length)
  lower : ∀ e ∈ Q, q.length ≤ e.2.length
  upper : ∀ e ∈ Q, e.2.length ≤ q.length + 1
  minimal : ∀ e ∈ Q, ∀ p, EdgePath g s p e.1 → e.2.length ≤ p.length
  closed : ∀ u ∈ V, (∃ e ∈ Q, e.1 = u) ∨
    (∀ r ∈ getOutgoingRelationships g u, r.target_id ∈ V) ∨ u = v
  target_in_queue : t ∈ V → ∃ e ∈ Q, e.1 = t

/-- The invariant of the BFS `while` loop at the top of each iteration:
queue entries carry valid minimal paths from the source `s`, path lengths
along the queue are nondecreasing and spread over at most two consecutive
values, every visited node is queued or successor-closed, and the target
`t`, once visited, stays queued. -/
structure BfsInv (g : KnowledgeGraph) (s t : String)
    (V : List String) (Q : List (String × List String)) : Prop where
  entries_path : ∀ e ∈ Q, EdgePath g s e.2 e.1
  entries_vis : ∀ e ∈ Q, e.1 ∈ V
  start_vis : s ∈ V
  sorted : Q.Pairwise (fun e1 e2 => e1.2.length ≤ e2.2.length)
  window : ∀ e1 ∈ Q, ∀ e2 ∈ Q, e1.2.length ≤ e2.2.length + 1
  minimal : ∀ e ∈ Q, ∀ p, EdgePath g s p e.1 → e.2.length ≤ p.length
  closed : ∀ u ∈ V, (∃ e ∈ Q, e.1 = u) ∨
    (∀ r ∈ getOutgoingRelationships g u, r.target_id ∈ V)
  target_in_queue : t ∈ V → ∃ e ∈ Q, e.1 = t

/-- `ReachWithin g ts n x y`: `y` is reachable from `x` by following at
most `n` relationships taken from the outgoing index, each with a type
contained in `ts`. -/
inductive ReachWithin (g : KnowledgeGraph) (ts : List String) :
    Nat → String → String → Prop
  | refl (n x) : ReachWithin g ts n x x
  | step (n : Nat) (x z : String) (r : Relationship) :
      r ∈ getOutgoingRelationships g x → r.type ∈ ts →
      ReachWithin g ts n r.target_id z → ReachWithin g ts (n + 1) x z

end AIToolkit

namespace AIToolkit

/-! # Theorems -/

/-! ## Helper lemmas -/

/-- Membership in a bucket after a `defaultdict(set)` add: the element was
already in that bucket, or it is the added value in the added key's
bucket. -/
theorem mem_bucketOf_dictAddToSet (d : List (String × List String))
    (k v k' x : String) (hx : x ∈ bucketOf (dictAddToSet d k v) k') :
    x ∈ bucketOf d k' ∨ (k' = k ∧ x = v) := by
  induction d with
  | nil =>
    simp only [dictAddToSet, bucketOf, dictGet] at hx
    by_cases hk : k = k'
    · simp [hk] at hx
      simp [hx, hk]
    · simp [hk] at hx
  | cons hd rest ih =>
    obtain ⟨k'', vs⟩ := hd
    by_cases hk : k'' = k
    · subst hk
      simp only [dictAddToSet, if_pos rfl] at hx
      by_cases hk' : k'' = k'
      · subst hk'
        simp only [bucketOf, dictGet, if_pos rfl, Option.getD_some] at hx ⊢
        by_cases hv : v ∈ vs
        · simp [hv] at hx
          exact .inl hx
        · simp [hv] at hx
          rcases hx with h | h
          · exact .inl h
          · simp [h]
      · simp only [bucketOf, dictGet, if_neg hk'] at hx ⊢
        exact .inl hx
    · simp only [dictAddToSet, if_neg hk] at hx
      by_cases hk' : k'' = k'
      · subst hk'
        simp only [bucketOf, dictGet, if_pos rfl, Option.getD_some] at hx ⊢
        exact .inl hx
      · simp only [bucketOf, dictGet, if_neg hk'] at hx ⊢
        exact ih hx

/-- Overwriting or inserting a key makes it retrievable. -/
theorem dictGet_dictSet_self {α : Type} (d : List (String × α)) (k : String)
    (v : α) : dictGet (dictSet d k v) k = some v := by
  induction d with
  | nil => simp [dictSet, dictGet]
  | cons hd rest ih =>
    obtain ⟨k', v'⟩ := hd
    by_cases hk : k' = k
    · simp [dictSet, dictGet, hk]
    · simp [dictSet, dictGet, hk, ih]

/-- Setting one key leaves every other key's binding unchanged. -/
theorem dictGet_dictSet_ne {α : Type} (d : List (String × α)) (k k' : String)
    (v : α) (h : k ≠ k') : dictGet (dictSet d k v) k' = dictGet d k' := by
  induction d with
  | nil => simp [dictSet, dictGet, h]
  | cons hd rest ih =>
    obtain ⟨k'', v'⟩ := hd
    by_cases hk : k'' = k
    · subst hk
      simp [dictSet, dictGet, h]
    · simp [dictSet, dictGet, hk, ih]

/-- Appending to a key's bucket appends to what that key held. -/
theorem dictGet_dictAppend_self {α : Type} (d : List (String × List α))
    (k : String) (v : α) :
    (dictGet (dictAppend d k v) k).getD [] = (dictGet d k).getD [] ++ [v] := by
  induction d with
  | nil => simp [dictAppend, dictGet]
  | cons hd rest ih =>
    obtain ⟨k', vs⟩ := hd
    by_cases hk : k' = k
    · simp [dictAppend, dictGet, hk]
    · simp [dictAppend, dictGet, hk, ih]

/-- Appending to one key's bucket leaves other keys' buckets unchanged. -/
theorem dictGet_dictAppend_ne {α : Type} (d : List (String × List α))
    (k k' : String) (v : α) (h : k ≠ k') :
    dictGet (dictAppend d k v) k' = dictGet d k' := by
  induction d with
  | nil => simp [dictAppend, dictGet, h]
  | cons hd rest ih =>
    obtain ⟨k'', vs⟩ := hd
    by_cases hk : k'' = k
    · subst hk
      simp [dictAppend, dictGet, h]
    · simp [dictAppend, dictGet, hk, ih]

/-- The fresh-id generator is injective (distinct creations get distinct
ids, as `uuid.uuid4()` guarantees in practice). -/
theorem freshId_injective : Function.Injective freshId := by
  intro n m h
  have hlen := congrArg String.length h
  simpa [freshId, String.length_append] using hlen

/-- A parser-state fold whose step keeps `analyzed_files` keeps it too. -/
theorem foldl_analyzed_preserved {A : Type} (f : ParserState → A → ParserState)
    (h : ∀ st x, (f st x).analyzed_files = st.analyzed_files) :
    ∀ (l : List A) (st : ParserState),
      (l.foldl f st).analyzed_files = st.analyzed_files := by
  intro l
  induction l with
  | nil => intro st; rfl
  | cons x xs ih => intro st; rw [List.foldl_cons, ih, h]

/-- A parser-state fold whose step keeps the component map keeps it too. -/
theorem foldl_components_preserved {A : Type} (f : ParserState → A → ParserState)
    (h : ∀ st x, (f st x).knowledge_graph.components
      = st.knowledge_graph.components) :
    ∀ (l : List A) (st : ParserState),
      (l.foldl f st).knowledge_graph.components
        = st.knowledge_graph.components := by
  intro l
  induction l with
  | nil => intro st; rfl
  | cons x xs ih => intro st; rw [List.foldl_cons, ih, h]

/-- A successful `add_relationship` never touches the component map. -/
theorem addRelationship_ok_components (g g' : KnowledgeGraph)
    (r : Relationship) (h : addRelationship g r = .ok g') :
    g'.components = g.components := by
  unfold addRelationship at h
  split at h
  · cases h
  · split at h
    · cases h
    · split at h
      · cases h; rfl
      · cases h; rfl

/-- `add_relationship` succeeds whenever both endpoints are stored. -/
theorem addRelationship_ok_of_contains (g : KnowledgeGraph) (r : Relationship)
    (hs : dictContains g.components r.source_id = true)
    (ht : dictContains g.components r.target_id = true) :
    ∃ g', addRelationship g r = .ok g' := by
  unfold addRelationship
  rw [if_neg (by simp [hs]), if_neg (by simp [ht])]
  split
  · exact ⟨g, rfl⟩
  · exact ⟨_, rfl⟩

/-- Emitting (or deferring) one call never touches the processed-file
set. -/
theorem analyzeOneCall_analyzed (st : ParserState) (fid n : String) :
    (analyzeOneCall st fid n).analyzed_files = st.analyzed_files := by
  unfold analyzeOneCall
  split
  · dsimp only
    split <;> rfl
  · rfl

/-- Emitting (or deferring) one call never touches the component map. -/
theorem analyzeOneCall_components (st : ParserState) (fid n : String) :
    (analyzeOneCall st fid n).knowledge_graph.components
      = st.knowledge_graph.components := by
  unfold analyzeOneCall
  split
  · dsimp only
    split
    · rename_i g heq
      exact addRelationship_ok_components _ _ _ heq
    · rfl
  · rfl

/-- Processing one function definition never touches the processed-file
set. -/
theorem processFunction_analyzed (mid : String) (mp : Option String)
    (d : FunctionDef) (st : ParserState) :
    ((processFunction mid mp d st).1).analyzed_files = st.analyzed_files := by
  unfold processFunction
  dsimp only
  split
  · rfl
  · exact foldl_analyzed_preserved _
      (fun st2 x => analyzeOneCall_analyzed st2 _ x) _ _

/-- Walking a module body never touches the processed-file set. -/
theorem processModule_analyzed (mid : String) (mp : Option String) :
    ∀ (ds : List FunctionDef) (st : ParserState),
      ((processModule mid mp ds st).1).analyzed_files = st.analyzed_files := by
  intro ds
  induction ds with
  | nil => intro st; rfl
  | cons d rest ih =>
    intro st
    unfold processModule
    rcases hpf : processFunction mid mp d st with ⟨st1, e⟩
    have h1 : st1.analyzed_files = st.analyzed_files := by
      have := processFunction_analyzed mid mp d st
      rw [hpf] at this
      exact this
    cases e with
    | none =>
      simp only [hpf]
      rw [ih st1, h1]
    | some err =>
      simp only [hpf]
      exact h1

/-- Replaying one deferred bucket never touches the processed-file set. -/
theorem replayCalls_analyzed (st : ParserState) (tid : String)
    (l : List String) :
    (replayCalls st tid l).analyzed_files = st.analyzed_files := by
  unfold replayCalls
  refine foldl_analyzed_preserved _ ?_ l st
  intro st2 x
  unfold replayOneCall
  dsimp only
  split <;> rfl

/-- The deferred-call replay never touches the processed-file set. -/
theorem processFunctionCalls_analyzed (st : ParserState) :
    (processFunctionCalls st).analyzed_files = st.analyzed_files := by
  unfold processFunctionCalls
  refine foldl_analyzed_preserved _ ?_ _ st
  intro st2 x
  unfold replayBucket
  split
  · rw [replayCalls_analyzed]
  · rfl

/-- Bucket membership survives any `dictAppend`. -/
theorem mem_bucket_dictAppend_mono {A : Type} (d : List (String × List A))
    (k n : String) (v x : A) (hx : x ∈ (dictGet d n).getD []) :
    x ∈ (dictGet (dictAppend d k v) n).getD [] := by
  by_cases hk : k = n
  · subst hk
    rw [dictGet_dictAppend_self]
    exact List.mem_append_left _ hx
  · rwa [dictGet_dictAppend_ne _ _ _ _ hk]

/-- The added element lands in its key's bucket. -/
theorem mem_bucket_dictAppend_self {A : Type} (d : List (String × List A))
    (k : String) (v : A) : v ∈ (dictGet (dictAppend d k v) k).getD [] := by
  rw [dictGet_dictAppend_self]
  exact List.mem_append_right _ (List.mem_singleton.mpr rfl)

/-- A successful `add_relationship` keeps every stored relationship. -/
theorem addRelationship_ok_rels_mono (g g' : KnowledgeGraph)
    (r : Relationship) (h : addRelationship g r = .ok g') :
    ∀ rel ∈ g.relationships, rel ∈ g'.relationships := by
  unfold addRelationship at h
  split at h
  · cases h
  · split at h
    · cases h
    · split at h
      · cases h
        exact fun rel hr => hr
      · cases h
        exact fun rel hr => List.mem_append_left _ hr

/-- Emitting (or deferring) one call never touches the binding table. -/
theorem analyzeOneCall_bindings (st : ParserState) (fid n : String) :
    (analyzeOneCall st fid n).name_bindings = st.name_bindings := by
  unfold analyzeOneCall
  split
  · dsimp only
    split <;> rfl
  · rfl

/-- Emitting (or deferring) one call never shrinks a deferred bucket. -/
theorem analyzeOneCall_fc_mono (st : ParserState) (fid n n' x : String)
    (hx : x ∈ (dictGet st.function_calls n').getD []) :
    x ∈ (dictGet (analyzeOneCall st fid n).function_calls n').getD [] := by
  unfold analyzeOneCall
  split
  · dsimp only
    split <;> exact hx
  · exact mem_bucket_dictAppend_mono _ _ _ _ _ hx

/-- Emitting (or deferring) one call never removes a stored
relationship. -/
theorem analyzeOneCall_rels_mono (st : ParserState) (fid n : String)
    (rel : Relationship) (hr : rel ∈ st.knowledge_graph.relationships) :
    rel ∈ (analyzeOneCall st fid n).knowledge_graph.relationships := by
  unfold analyzeOneCall
  split
  · dsimp only
    split
    · rename_i g heq
      exact addRelationship_ok_rels_mono _ _ _ heq rel hr
    · exact hr
  · exact hr

/-- An unresolvable bare-name call is deferred: it is appended to the
callee name's bucket of the deferred-call table. -/
theorem analyzeOneCall_defer (st : ParserState) (fid n : String)
    (h : dictGet st.name_bindings n = none) :
    (analyzeOneCall st fid n).function_calls
      = dictAppend st.function_calls n fid := by
  unfold analyzeOneCall
  rw [h]

/-- A key stays present through any `dictSet`. -/
theorem dictContains_dictSet_mono {A : Type} (d : List (String × A))
    (k k' : String) (v : A) (h : dictContains d k = true) :
    dictContains (dictSet d k' v) k = true := by
  by_cases hk : k' = k
  · subst hk
    simp [dictContains, dictGet_dictSet_self]
  · rwa [dictContains, dictGet_dictSet_ne _ _ _ _ hk]

/-- Processing a function definition whose owning module is stored raises
nothing (the `contains` insertion finds both endpoints) and keeps the
module stored. -/
theorem processFunction_ok (mid : String) (mp : Option String)
    (d : FunctionDef) (st : ParserState)
    (hmid : dictContains st.knowledge_graph.components mid = true) :
    (processFunction mid mp d st).2 = none ∧
    dictContains
      (processFunction mid mp d st).1.knowledge_graph.components mid
        = true := by
  unfold processFunction
  dsimp only
  have hmid2 : dictContains (addComponent st.knowledge_graph
      { name := d.name, type := "function", file_path := mp,
        id := freshId st.next_id }).components mid = true := by
    cases hfp : mp <;>
      simp [addComponent, hfp] <;>
      exact dictContains_dictSet_mono _ _ _ _ hmid
  have hfun : dictContains (addComponent st.knowledge_graph
      { name := d.name, type := "function", file_path := mp,
        id := freshId st.next_id }).components (freshId st.next_id) = true := by
    cases hfp : mp <;>
      simp [addComponent, hfp, dictContains, dictGet_dictSet_self]
  rcases addRelationship_ok_of_contains _
      { source_id := mid, target_id := freshId st.next_id, type := "contains",
        id := freshId (st.next_id + 1) } hmid2 hfun with ⟨g2, hg2⟩
  rw [hg2]
  dsimp only
  constructor
  · rfl
  · rw [foldl_components_preserved _
      (fun st2 x => analyzeOneCall_components st2 _ x)]
    dsimp only
    rw [addRelationship_ok_components _ _ _ hg2]
    exact hmid2

/-- `add_component` stores the component under its id (the index updates
touch other fields). -/
theorem addComponent_components (g : KnowledgeGraph) (c : Component) :
    (addComponent g c).components = dictSet g.components c.id c := by
  unfold addComponent
  cases c.file_path <;> rfl

/-- `add_component` never touches the relationship list. -/
theorem addComponent_relationships (g : KnowledgeGraph) (c : Component) :
    (addComponent g c).relationships = g.relationships := by
  unfold addComponent
  cases c.file_path <;> rfl

/-- The call-walk fold never touches the binding table. -/
theorem foldCalls_bindings (fid : String) (l : List String) :
    ∀ st : ParserState,
      (l.foldl (fun acc n => analyzeOneCall acc fid n) st).name_bindings
        = st.name_bindings := by
  induction l with
  | nil => intro st; rfl
  | cons x xs ih =>
    intro st
    rw [List.foldl_cons, ih, analyzeOneCall_bindings]

/-- The call-walk fold never shrinks a deferred bucket. -/
theorem foldCalls_fc_mono (fid : String) (l : List String) :
    ∀ (st : ParserState) (n' x : String),
      x ∈ (dictGet st.function_calls n').getD [] →
      x ∈ (dictGet
        (l.foldl (fun acc n => analyzeOneCall acc fid n) st).function_calls
          n').getD [] := by
  induction l with
  | nil => intro st n' x hx; exact hx
  | cons y ys ih =>
    intro st n' x hx
    rw [List.foldl_cons]
    exact ih _ n' x (analyzeOneCall_fc_mono st fid y n' x hx)

/-- The call-walk fold never removes a stored relationship. -/
theorem foldCalls_rels_mono (fid : String) (l : List String) :
    ∀ (st : ParserState) (rel : Relationship),
      rel ∈ st.knowledge_graph.relationships →
      rel ∈ (l.foldl (fun acc n => analyzeOneCall acc fid n)
        st).knowledge_graph.relationships := by
  induction l with
  | nil => intro st rel hr; exact hr
  | cons y ys ih =>
    intro st rel hr
    rw [List.foldl_cons]
    exact ih _ rel (analyzeOneCall_rels_mono st fid y rel hr)

/-- A call to a name that is unbound throughout the walk ends up deferred:
the caller id lands in the callee name's bucket of the deferred table. -/
theorem foldCalls_defer (fid gname : String) :
    ∀ l : List String, gname ∈ l →
    ∀ st : ParserState, dictGet st.name_bindings gname = none →
      fid ∈ (dictGet
        (l.foldl (fun acc n => analyzeOneCall acc fid n) st).function_calls
          gname).getD [] := by
  intro l
  induction l with
  | nil => intro hg; cases hg
  | cons y ys ih =>
    intro hg st hunb
    rw [List.foldl_cons]
    by_cases hy : y = gname
    · subst hy
      have hdef := analyzeOneCall_defer st fid y hunb
      by_cases hmem : y ∈ ys
      · exact ih hmem _ (by rw [analyzeOneCall_bindings]; exact hunb)
      · apply foldCalls_fc_mono
        rw [hdef]
        exact mem_bucket_dictAppend_self _ _ _
    · have hmem : gname ∈ ys := by
        rcases List.mem_cons.mp hg with h | h
        · exact absurd h.symm hy
        · exact h
      exact ih hmem _ (by rw [analyzeOneCall_bindings]; exact hunb)

/-- The fresh-id counter never decreases across one call analysis. -/
theorem analyzeOneCall_next_mono (st : ParserState) (fid n : String) :
    st.next_id ≤ (analyzeOneCall st fid n).next_id := by
  unfold analyzeOneCall
  split
  · dsimp only
    split <;> simp
  · simp

/-- The fresh-id counter never decreases across the call-walk fold. -/
theorem foldCalls_next_mono (fid : String) (l : List String) :
    ∀ st : ParserState,
      st.next_id ≤
        (l.foldl (fun acc n => analyzeOneCall acc fid n) st).next_id := by
  induction l with
  | nil => intro st; exact Nat.le_refl _
  | cons y ys ih =>
    intro st
    rw [List.foldl_cons]
    exact Nat.le_trans (analyzeOneCall_next_mono st fid y) (ih _)

/-- Processing a function definition binds its name to the fresh component
id (on both the normal and the exception path — the binding is recorded
before the `contains` insertion). -/
theorem processFunction_bindings (mid : String) (mp : Option String)
    (d : FunctionDef) (st : ParserState) :
    (processFunction mid mp d st).1.name_bindings
      = dictSet st.name_bindings d.name (freshId st.next_id) := by
  unfold processFunction
  dsimp only
  split
  · rfl
  · exact foldCalls_bindings _ _ _

/-- Processing a function definition advances the fresh-id counter past
the two ids it draws. -/
theorem processFunction_next (mid : String) (mp : Option String)
    (d : FunctionDef) (st : ParserState) :
    st.next_id + 2 ≤ (processFunction mid mp d st).1.next_id := by
  unfold processFunction
  dsimp only
  split
  · exact Nat.le_refl _
  · dsimp only
    refine Nat.le_trans ?_ (foldCalls_next_mono _ _ _)
    dsimp only
    omega

/-- Processing a function definition keeps every stored component id
present. -/
theorem processFunction_contains_mono (mid : String) (mp : Option String)
    (d : FunctionDef) (st : ParserState) (k : String)
    (hk : dictContains st.knowledge_graph.components k = true) :
    dictContains
      (processFunction mid mp d st).1.knowledge_graph.components k = true := by
  unfold processFunction
  dsimp only
  have hadd : dictContains (addComponent st.knowledge_graph
      { name := d.name, type := "function", file_path := mp,
        id := freshId st.next_id }).components k = true := by
    rw [dictContains, addComponent_components]
    rw [dictContains] at hk
    by_cases hkk : freshId st.next_id = k
    · subst hkk
      simp [dictGet_dictSet_self]
    · rw [dictGet_dictSet_ne _ _ _ _ hkk]
      exact hk
  split
  · exact hadd
  · rename_i g2 heq
    rw [dictContains, foldl_components_preserved _
      (fun st2 x => analyzeOneCall_components st2 _ x)]
    dsimp only
    rw [addRelationship_ok_components _ _ _ heq]
    exact hadd

/-- Processing a function definition stores exactly the new function
component under its fresh id. -/
theorem processFunction_component_new (mid : String) (mp : Option String)
    (d : FunctionDef) (st : ParserState) :
    dictGet (processFunction mid mp d st).1.knowledge_graph.components
        (freshId st.next_id)
      = some { name := d.name, type := "function", file_path := mp,
               id := freshId st.next_id } := by
  unfold processFunction
  dsimp only
  have hadd : dictGet (addComponent st.knowledge_graph
      { name := d.name, type := "function", file_path := mp,
        id := freshId st.next_id }).components (freshId st.next_id)
      = some { name := d.name, type := "function", file_path := mp,
               id := freshId st.next_id } := by
    rw [addComponent_components]
    exact dictGet_dictSet_self _ _ _
  split
  · exact hadd
  · rename_i g2 heq
    rw [foldl_components_preserved _
      (fun st2 x => analyzeOneCall_components st2 _ x)]
    dsimp only
    rw [addRelationship_ok_components _ _ _ heq]
    exact hadd

/-- Processing a function definition leaves every component created under
an earlier fresh id untouched. -/
theorem processFunction_components_persist (mid : String) (mp : Option String)
    (d : FunctionDef) (st : ParserState) (k : Nat) (c : Component)
    (hk : k < st.next_id)
    (h : dictGet st.knowledge_graph.components (freshId k) = some c) :
    dictGet (processFunction mid mp d st).1.knowledge_graph.components
      (freshId k) = some c := by
  unfold processFunction
  dsimp only
  have hne : freshId st.next_id ≠ freshId k := fun he => by
    have := freshId_injective he
    omega
  have hadd : dictGet (addComponent st.knowledge_graph
      { name := d.name, type := "function", file_path := mp,
        id := freshId st.next_id }).components (freshId k) = some c := by
    rw [addComponent_components, dictGet_dictSet_ne _ _ _ _ hne]
    exact h
  split
  · exact hadd
  · rename_i g2 heq
    rw [foldl_components_preserved _
      (fun st2 x => analyzeOneCall_components st2 _ x)]
    dsimp only
    rw [addRelationship_ok_components _ _ _ heq]
    exact hadd

/-- Processing a function definition never shrinks a deferred bucket. -/
theorem processFunction_fc_mono (mid : String) (mp : Option String)
    (d : FunctionDef) (st : ParserState) (n' x : String)
    (hx : x ∈ (dictGet st.function_calls n').getD []) :
    x ∈ ((dictGet (processFunction mid mp d st).1.function_calls n').getD
      []) := by
  unfold processFunction
  dsimp only
  split
  · exact hx
  · exact foldCalls_fc_mono _ _ _ _ _ hx

/-- Processing a function definition never removes a stored
relationship. -/
theorem processFunction_rels_mono (mid : String) (mp : Option String)
    (d : FunctionDef) (st : ParserState) (rel : Relationship)
    (hr : rel ∈ st.knowledge_graph.relationships) :
    rel ∈ (processFunction mid mp d st).1.knowledge_graph.relationships := by
  unfold processFunction
  dsimp only
  have hadd : rel ∈ (addComponent st.knowledge_graph
      { name := d.name, type := "function", file_path := mp,
        id := freshId st.next_id }).relationships := by
    rw [addComponent_relationships]
    exact hr
  split
  · exact hadd
  · rename_i g2 heq
    apply foldCalls_rels_mono
    dsimp only
    exact addRelationship_ok_rels_mono _ _ _ heq rel hadd

/-- The key deferral fact: a bare-name call to a name that is neither the
function's own name nor bound before the function is visited ends up in
the deferred table, recorded under the callee name with the function's
fresh component id as the caller. -/
theorem processFunction_defer (mid : String) (mp : Option String)
    (d : FunctionDef) (st : ParserState) (gname : String)
    (hmid : dictContains st.knowledge_graph.components mid = true)
    (hcall : gname ∈ d.calls) (hne : gname ≠ d.name)
    (hunb : dictGet st.name_bindings gname = none) :
    freshId st.next_id ∈
      ((dictGet (processFunction mid mp d st).1.function_calls gname).getD
        []) := by
  have hok := processFunction_ok mid mp d st hmid
  unfold processFunction at hok ⊢
  dsimp only at hok ⊢
  split
  · rename_i e heq
    rw [heq] at hok
    cases hok.1
  · apply foldCalls_defer _ _ _ hcall
    dsimp only
    rw [dictGet_dictSet_ne _ _ _ _ (fun h => hne h.symm)]
    exact hunb

/-- Walking a module body whose module component is stored propagates no
exception: the result's error component is `none`. -/
theorem processModule_ok (mid : String) (mp : Option String) :
    ∀ (ds : List FunctionDef) (st : ParserState),
      dictContains st.knowledge_graph.components mid = true →
      processModule mid mp ds st = ((processModule mid mp ds st).1, none) := by
  intro ds
  induction ds with
  | nil => intro st _; rfl
  | cons d rest ih =>
    intro st hmid
    unfold processModule
    rcases hpf : processFunction mid mp d st with ⟨st1, e⟩
    have hok := processFunction_ok mid mp d st hmid
    rw [hpf] at hok
    obtain ⟨he, hc1⟩ := hok
    subst he
    simpa using ih st1 hc1

/-- Walking a module body splits over list append when the module
component is stored (no exception interrupts the first half). -/
theorem processModule_append (mid : String) (mp : Option String) :
    ∀ (l1 l2 : List FunctionDef) (st : ParserState),
      dictContains st.knowledge_graph.components mid = true →
      processModule mid mp (l1 ++ l2) st
        = processModule mid mp l2 (processModule mid mp l1 st).1 := by
  intro l1
  induction l1 with
  | nil => intro l2 st _; rfl
  | cons d rest ih =>
    intro l2 st hmid
    have hok := processFunction_ok mid mp d st hmid
    rcases hpf : processFunction mid mp d st with ⟨st1, e⟩
    rw [hpf] at hok
    obtain ⟨he, hc1⟩ := hok
    subst he
    dsimp only at hc1
    have hstep : processModule mid mp (d :: rest) st
        = processModule mid mp rest st1 := by
      conv_lhs => rw [processModule.eq_def]
      dsimp only
      rw [hpf]
    have hstep2 : processModule mid mp (d :: (rest ++ l2)) st
        = processModule mid mp (rest ++ l2) st1 := by
      conv_lhs => rw [processModule.eq_def]
      dsimp only
      rw [hpf]
    show processModule mid mp (d :: (rest ++ l2)) st = _
    rw [hstep2, hstep, ih l2 st1 hc1]

/-- Walking a module body binds nothing for names it does not declare. -/
theorem processModule_bindings_not_declared (mid : String)
    (mp : Option String) :
    ∀ (ds : List FunctionDef) (st : ParserState) (n : String),
      n ∉ ds.map FunctionDef.name →
      dictGet (processModule mid mp ds st).1.name_bindings n
        = dictGet st.name_bindings n := by
  intro ds
  induction ds with
  | nil => intro st n _; rfl
  | cons d rest ih =>
    intro st n hn
    simp only [List.map_cons, List.mem_cons, not_or] at hn
    unfold processModule
    rcases hpf : processFunction mid mp d st with ⟨st1, e⟩
    have hb : dictGet st1.name_bindings n = dictGet st.name_bindings n := by
      have := processFunction_bindings mid mp d st
      rw [hpf] at this
      dsimp only at this
      rw [this, dictGet_dictSet_ne _ _ _ _ (fun h => hn.1 h.symm)]
    cases e with
    | none =>
      dsimp only
      rw [ih st1 n hn.2, hb]
    | some err =>
      dsimp only
      exact hb

/-- The fresh-id counter never decreases across a module-body walk. -/
theorem processModule_next_mono (mid : String) (mp : Option String) :
    ∀ (ds : List FunctionDef) (st : ParserState),
      st.next_id ≤ (processModule mid mp ds st).1.next_id := by
  intro ds
  induction ds with
  | nil => intro st; exact Nat.le_refl _
  | cons d rest ih =>
    intro st
    unfold processModule
    rcases hpf : processFunction mid mp d st with ⟨st1, e⟩
    have hn : st.next_id ≤ st1.next_id := by
      have := processFunction_next mid mp d st
      rw [hpf] at this
      dsimp only at this
      omega
    cases e with
    | none =>
      dsimp only
      exact Nat.le_trans hn (ih st1)
    | some err =>
      dsimp only
      exact hn

/-- A module-body walk keeps every stored component id present. -/
theorem processModule_contains_mono (mid : String) (mp : Option String) :
    ∀ (ds : List FunctionDef) (st : ParserState) (k : String),
      dictContains st.knowledge_graph.components k = true →
      dictContains
        (processModule mid mp ds st).1.knowledge_graph.components k
          = true := by
  intro ds
  induction ds with
  | nil => intro st k hk; exact hk
  | cons d rest ih =>
    intro st k hk
    unfold processModule
    rcases hpf : processFunction mid mp d st with ⟨st1, e⟩
    have hk1 : dictContains st1.knowledge_graph.components k = true := by
      have := processFunction_contains_mono mid mp d st k hk
      rw [hpf] at this
      exact this
    cases e with
    | none =>
      dsimp only
      exact ih st1 k hk1
    | some err =>
      dsimp only
      exact hk1

/-- A module-body walk leaves components created under earlier fresh ids
untouched. -/
theorem processModule_components_persist (mid : String) (mp : Option String) :
    ∀ (ds : List FunctionDef) (st : ParserState) (k : Nat) (c : Component),
      k < st.next_id →
      dictGet st.knowledge_graph.components (freshId k) = some c →
      dictGet (processModule mid mp ds st).1.knowledge_graph.components
        (freshId k) = some c := by
  intro ds
  induction ds with
  | nil => intro st k c _ h; exact h
  | cons d rest ih =>
    intro st k c hk h
    unfold processModule
    rcases hpf : processFunction mid mp d st with ⟨st1, e⟩
    have h1 : dictGet st1.knowledge_graph.components (freshId k) = some c := by
      have := processFunction_components_persist mid mp d st k c hk h
      rw [hpf] at this
      exact this
    have hk1 : k < st1.next_id := by
      have := processFunction_next mid mp d st
      rw [hpf] at this
      dsimp only at this
      omega
    cases e with
    | none =>
      dsimp only
      exact ih st1 k c hk1 h1
    | some err =>
      dsimp only
      exact h1

/-- A module-body walk never shrinks a deferred bucket. -/
theorem processModule_fc_mono (mid : String) (mp : Option String) :
    ∀ (ds : List FunctionDef) (st : ParserState) (n x : String),
      x ∈ (dictGet st.function_calls n).getD [] →
      x ∈ ((dictGet (processModule mid mp ds st).1.function_calls n).getD
        []) := by
  intro ds
  induction ds with
  | nil => intro st n x hx; exact hx
  | cons d rest ih =>
    intro st n x hx
    unfold processModule
    rcases hpf : processFunction mid mp d st with ⟨st1, e⟩
    have hx1 : x ∈ (dictGet st1.function_calls n).getD [] := by
      have := processFunction_fc_mono mid mp d st n x hx
      rw [hpf] at this
      exact this
    cases e with
    | none =>
      dsimp only
      exact ih st1 n x hx1
    | some err =>
      dsimp only
      exact hx1

/-- A module-body walk never removes a stored relationship. -/
theorem processModule_rels_mono (mid : String) (mp : Option String) :
    ∀ (ds : List FunctionDef) (st : ParserState) (rel : Relationship),
      rel ∈ st.knowledge_graph.relationships →
      rel ∈ (processModule mid mp ds st).1.knowledge_graph.relationships := by
  intro ds
  induction ds with
  | nil => intro st rel hr; exact hr
  | cons d rest ih =>
    intro st rel hr
    unfold processModule
    rcases hpf : processFunction mid mp d st with ⟨st1, e⟩
    have hr1 : rel ∈ st1.knowledge_graph.relationships := by
      have := processFunction_rels_mono mid mp d st rel hr
      rw [hpf] at this
      exact this
    cases e with
    | none =>
      dsimp only
      exact ih st1 rel hr1
    | some err =>
      dsimp only
      exact hr1

/-- When both endpoints are stored, `add_relationship` succeeds and a
relationship with the requested triple ends up stored: the new edge, or
the already-stored duplicate that suppressed it. -/
theorem addRelationship_triple_present (g : KnowledgeGraph)
    (r : Relationship)
    (hs : dictContains g.components r.source_id = true)
    (ht : dictContains g.components r.target_id = true) :
    ∃ g', addRelationship g r = .ok g' ∧
      ∃ rel ∈ g'.relationships, rel.source_id = r.source_id ∧
        rel.target_id = r.target_id ∧ rel.type = r.type := by
  unfold addRelationship
  rw [if_neg (by simp [hs]), if_neg (by simp [ht])]
  split
  · rename_i hdup
    rcases List.any_eq_true.mp hdup with ⟨rel, hmem, hrel⟩
    simp only [decide_eq_true_eq] at hrel
    exact ⟨g, rfl, rel, hmem, hrel⟩
  · exact ⟨_, rfl, r,
      List.mem_append_right _ (List.mem_singleton.mpr rfl), rfl, rfl, rfl⟩

/-- A parser-state fold whose step keeps the binding table keeps it too. -/
theorem foldl_bindings_preserved {A : Type} (f : ParserState → A → ParserState)
    (h : ∀ st x, (f st x).name_bindings = st.name_bindings) :
    ∀ (l : List A) (st : ParserState),
      (l.foldl f st).name_bindings = st.name_bindings := by
  intro l
  induction l with
  | nil => intro st; rfl
  | cons x xs ih => intro st; rw [List.foldl_cons, ih, h]

/-- One replayed call keeps the binding table. -/
theorem replayOneCall_bindings (tid : String) (st : ParserState)
    (c : String) :
    (replayOneCall tid st c).name_bindings = st.name_bindings := by
  unfold replayOneCall
  dsimp only
  split <;> rfl

/-- One replayed call keeps the component map. -/
theorem replayOneCall_components (tid : String) (st : ParserState)
    (c : String) :
    (replayOneCall tid st c).knowledge_graph.components
      = st.knowledge_graph.components := by
  unfold replayOneCall
  dsimp only
  split
  · rename_i g heq
    exact addRelationship_ok_components _ _ _ heq
  · rfl

/-- One replayed call keeps every stored relationship. -/
theorem replayOneCall_rels_mono (tid : String) (st : ParserState)
    (c : String) (rel : Relationship)
    (hr : rel ∈ st.knowledge_graph.relationships) :
    rel ∈ (replayOneCall tid st c).knowledge_graph.relationships := by
  unfold replayOneCall
  dsimp only
  split
  · rename_i g heq
    exact addRelationship_ok_rels_mono _ _ _ heq rel hr
  · exact hr

/-- Replaying a bucket keeps the binding table. -/
theorem replayCalls_bindings (st : ParserState) (tid : String)
    (l : List String) :
    (replayCalls st tid l).name_bindings = st.name_bindings := by
  unfold replayCalls
  exact foldl_bindings_preserved _ (replayOneCall_bindings tid) l st

/-- Replaying a bucket keeps the component map. -/
theorem replayCalls_components (st : ParserState) (tid : String)
    (l : List String) :
    (replayCalls st tid l).knowledge_graph.components
      = st.knowledge_graph.components := by
  unfold replayCalls
  exact foldl_components_preserved _ (replayOneCall_components tid) l st

/-- Replaying a bucket keeps every stored relationship. -/
theorem replayCalls_rels_mono (tid : String) :
    ∀ (l : List String) (st : ParserState) (rel : Relationship),
      rel ∈ st.knowledge_graph.relationships →
      rel ∈ (replayCalls st tid l).knowledge_graph.relationships := by
  intro l
  induction l with
  | nil => intro st rel hr; exact hr
  | cons y ys ih =>
    intro st rel hr
    unfold replayCalls at ih ⊢
    rw [List.foldl_cons]
    exact ih _ rel (replayOneCall_rels_mono tid st y rel hr)

/-- Replaying a bucket emits (or finds already stored) a `calls` edge for
every recorded caller, provided both ids are stored components. -/
theorem replayCalls_emits (tid : String) :
    ∀ (l : List String) (st : ParserState) (c : String), c ∈ l →
      dictContains st.knowledge_graph.components c = true →
      dictContains st.knowledge_graph.components tid = true →
      ∃ rel ∈ (replayCalls st tid l).knowledge_graph.relationships,
        rel.source_id = c ∧ rel.target_id = tid ∧ rel.type = "calls" := by
  intro l
  induction l with
  | nil => intro st c hc; cases hc
  | cons y ys ih =>
    intro st c hc hcc hct
    unfold replayCalls at ih ⊢
    rw [List.foldl_cons]
    by_cases hcy : c = y
    · subst hcy
      rcases addRelationship_triple_present st.knowledge_graph
          { source_id := c, target_id := tid, type := "calls"
            id := freshId st.next_id } hcc hct with
        ⟨g', hg', rel, hmem, h1, h2, h3⟩
      have hstep : replayOneCall tid st c
          = { st with next_id := st.next_id + 1, knowledge_graph := g' } := by
        unfold replayOneCall
        dsimp only
        rw [hg']
      rw [hstep]
      refine ⟨rel, ?_, h1, h2, h3⟩
      exact replayCalls_rels_mono tid ys _ rel hmem
    · have hmem : c ∈ ys := by
        rcases List.mem_cons.mp hc with h | h
        · exact absurd h hcy
        · exact h
      refine ih _ c hmem ?_ ?_
      · rw [replayOneCall_components]
        exact hcc
      · rw [replayOneCall_components]
        exact hct

/-- One bucket step keeps the binding table. -/
theorem replayBucket_bindings (st : ParserState)
    (e : String × List String) :
    (replayBucket st e).name_bindings = st.name_bindings := by
  unfold replayBucket
  split
  · rw [replayCalls_bindings]
  · rfl

/-- One bucket step keeps the component map. -/
theorem replayBucket_components (st : ParserState)
    (e : String × List String) :
    (replayBucket st e).knowledge_graph.components
      = st.knowledge_graph.components := by
  unfold replayBucket
  split
  · rw [replayCalls_components]
  · rfl

/-- One bucket step keeps every stored relationship. -/
theorem replayBucket_rels_mono (st : ParserState) (e : String × List String)
    (rel : Relationship) (hr : rel ∈ st.knowledge_graph.relationships) :
    rel ∈ (replayBucket st e).knowledge_graph.relationships := by
  unfold replayBucket
  split
  · exact replayCalls_rels_mono _ _ _ rel hr
  · exact hr

/-- The deferred-call replay keeps the binding table. -/
theorem processFunctionCalls_bindings (st : ParserState) :
    (processFunctionCalls st).name_bindings = st.name_bindings := by
  unfold processFunctionCalls
  exact foldl_bindings_preserved _ replayBucket_bindings _ st

/-- A bucket-fold keeps every stored relationship. -/
theorem foldl_replayBucket_rels_mono :
    ∀ (l : List (String × List String)) (st : ParserState)
      (rel : Relationship),
      rel ∈ st.knowledge_graph.relationships →
      rel ∈ (l.foldl replayBucket st).knowledge_graph.relationships := by
  intro l
  induction l with
  | nil => intro st rel hr; exact hr
  | cons e rest ih =>
    intro st rel hr
    rw [List.foldl_cons]
    exact ih _ rel (replayBucket_rels_mono st e rel hr)

/-- The deferred-call replay: a deferred caller whose callee name is bound
at replay time, with both component ids stored, yields a stored `calls`
edge from the caller to the name's binding. -/
theorem processFunctionCalls_emits (gname gid c : String) :
    ∀ (l : List (String × List String)) (st : ParserState)
      (vs : List String),
      dictGet l gname = some vs → c ∈ vs →
      dictGet st.name_bindings gname = some gid →
      dictContains st.knowledge_graph.components c = true →
      dictContains st.knowledge_graph.components gid = true →
      ∃ rel ∈ (l.foldl replayBucket st).knowledge_graph.relationships,
        rel.source_id = c ∧ rel.target_id = gid ∧ rel.type = "calls" := by
  intro l
  induction l with
  | nil => intro st vs h; cases h
  | cons e rest ih =>
    intro st vs hget hc hbind hcc hcg
    obtain ⟨k, ws⟩ := e
    rw [List.foldl_cons]
    by_cases hk : k = gname
    · subst hk
      simp only [dictGet, if_pos rfl] at hget
      cases hget
      have hstep : replayBucket st (k, vs) = replayCalls st gid vs := by
        unfold replayBucket
        dsimp only
        rw [hbind]
      rw [hstep]
      rcases replayCalls_emits gid vs st c hc hcc hcg with ⟨rel, hmem, hp⟩
      exact ⟨rel, foldl_replayBucket_rels_mono rest _ rel hmem, hp⟩
    · simp only [dictGet, if_neg hk] at hget
      refine ih _ vs hget hc ?_ ?_ ?_
      · rw [replayBucket_bindings]
        exact hbind
      · rw [replayBucket_components]
        exact hcc
      · rw [replayBucket_components]
        exact hcg

/-- The deferred-call replay keeps the component map. -/
theorem processFunctionCalls_components (st : ParserState) :
    (processFunctionCalls st).knowledge_graph.components
      = st.knowledge_graph.components := by
  unfold processFunctionCalls
  exact foldl_components_preserved _ replayBucket_components _ st

/-- Walking one declaration whose owning module is stored steps to the
rest of the body. -/
theorem processModule_cons_ok (mid : String) (mp : Option String)
    (d : FunctionDef) (rest : List FunctionDef) (st : ParserState)
    (hmid : dictContains st.knowledge_graph.components mid = true) :
    processModule mid mp (d :: rest) st
      = processModule mid mp rest (processFunction mid mp d st).1 := by
  have hok := processFunction_ok mid mp d st hmid
  rcases hpf : processFunction mid mp d st with ⟨st1, e⟩
  rw [hpf] at hok
  obtain ⟨he, _⟩ := hok
  subst he
  conv_lhs => rw [processModule.eq_def]
  dsimp only
  rw [hpf]

/-- The heart of forward-reference resolution, stated over the module-body
walk followed by the deferred-call replay: if `fd` is declared before `gd`,
`fd`'s body contains a bare-name call to `gd`'s name, that name is unbound
when `fd` is visited (not bound initially, not declared earlier, not `fd`
itself) and not re-declared later, then after the walk and the replay the
binding table maps both names to their function components, both
components are stored, and a `calls` edge from `fd`'s component to `gd`'s
component is stored. -/
theorem moduleWalk_forward_reference (mid0 : String) (mp : Option String)
    (pre mid post : List FunctionDef) (fd gd : FunctionDef)
    (stM : ParserState)
    (hmid : dictContains stM.knowledge_graph.components mid0 = true)
    (hunb : dictGet stM.name_bindings gd.name = none)
    (hcall : gd.name ∈ fd.calls)
    (hfg : fd.name ≠ gd.name)
    (hg_pre : gd.name ∉ pre.map FunctionDef.name)
    (hg_post : gd.name ∉ post.map FunctionDef.name)
    (hf_mid : fd.name ∉ mid.map FunctionDef.name)
    (hf_post : fd.name ∉ post.map FunctionDef.name) :
    ∃ fid gid,
      (processFunctionCalls (processModule mid0 mp
          (pre ++ fd :: (mid ++ gd :: post)) stM).1).name_bindings
        = (processModule mid0 mp
            (pre ++ fd :: (mid ++ gd :: post)) stM).1.name_bindings ∧
      dictGet (processModule mid0 mp (pre ++ fd :: (mid ++ gd :: post))
        stM).1.name_bindings fd.name = some fid ∧
      dictGet (processModule mid0 mp (pre ++ fd :: (mid ++ gd :: post))
        stM).1.name_bindings gd.name = some gid ∧
      dictGet (processFunctionCalls (processModule mid0 mp
          (pre ++ fd :: (mid ++ gd :: post)) stM).1).knowledge_graph.components
        fid = some { name := fd.name, type := "function", file_path := mp,
                     id := fid } ∧
      dictGet (processFunctionCalls (processModule mid0 mp
          (pre ++ fd :: (mid ++ gd :: post)) stM).1).knowledge_graph.components
        gid = some { name := gd.name, type := "function", file_path := mp,
                     id := gid } ∧
      ∃ rel ∈ (processFunctionCalls (processModule mid0 mp
          (pre ++ fd :: (mid ++ gd :: post))
          stM).1).knowledge_graph.relationships,
        rel.source_id = fid ∧ rel.target_id = gid ∧ rel.type = "calls" := by
  rw [processModule_append mid0 mp pre (fd :: (mid ++ gd :: post)) stM hmid]
  set sA := (processModule mid0 mp pre stM).1 with hsA
  have hmidA : dictContains sA.knowledge_graph.components mid0 = true :=
    processModule_contains_mono mid0 mp pre stM mid0 hmid
  have hunbA : dictGet sA.name_bindings gd.name = none := by
    rw [hsA, processModule_bindings_not_declared mid0 mp pre stM _ hg_pre]
    exact hunb
  rw [processModule_cons_ok mid0 mp fd (mid ++ gd :: post) sA hmidA]
  set sB := (processFunction mid0 mp fd sA).1 with hsB
  set fid := freshId sA.next_id with hfid
  have hbB : sB.name_bindings = dictSet sA.name_bindings fd.name fid :=
    processFunction_bindings mid0 mp fd sA
  have hfidB : dictGet sB.knowledge_graph.components fid
      = some { name := fd.name, type := "function", file_path := mp,
               id := fid } :=
    processFunction_component_new mid0 mp fd sA
  have hdefB : fid ∈ (dictGet sB.function_calls gd.name).getD [] :=
    processFunction_defer mid0 mp fd sA gd.name hmidA hcall
      (fun h => hfg h.symm) hunbA
  have hmidB : dictContains sB.knowledge_graph.components mid0 = true :=
    processFunction_contains_mono mid0 mp fd sA mid0 hmidA
  have hnfB : sA.next_id < sB.next_id := by
    have := processFunction_next mid0 mp fd sA
    rw [← hsB] at this
    omega
  rw [processModule_append mid0 mp mid (gd :: post) sB hmidB]
  set sC := (processModule mid0 mp mid sB).1 with hsC
  have hmidC : dictContains sC.knowledge_graph.components mid0 = true :=
    processModule_contains_mono mid0 mp mid sB mid0 hmidB
  have hfbC : dictGet sC.name_bindings fd.name = some fid := by
    rw [hsC, processModule_bindings_not_declared mid0 mp mid sB _ hf_mid,
      hbB]
    exact dictGet_dictSet_self _ _ _
  have hfidC : dictGet sC.knowledge_graph.components fid
      = some { name := fd.name, type := "function", file_path := mp,
               id := fid } :=
    processModule_components_persist mid0 mp mid sB sA.next_id _ hnfB hfidB
  have hdefC : fid ∈ (dictGet sC.function_calls gd.name).getD [] :=
    processModule_fc_mono mid0 mp mid sB gd.name fid hdefB
  have hnC : sB.next_id ≤ sC.next_id := processModule_next_mono mid0 mp mid sB
  rw [processModule_cons_ok mid0 mp gd post sC hmidC]
  set sD := (processFunction mid0 mp gd sC).1 with hsD
  set gid := freshId sC.next_id with hgid
  have hbD : sD.name_bindings = dictSet sC.name_bindings gd.name gid :=
    processFunction_bindings mid0 mp gd sC
  have hgidD : dictGet sD.knowledge_graph.components gid
      = some { name := gd.name, type := "function", file_path := mp,
               id := gid } :=
    processFunction_component_new mid0 mp gd sC
  have hfbD : dictGet sD.name_bindings fd.name = some fid := by
    rw [hbD, dictGet_dictSet_ne _ _ _ _ (fun h => hfg h.symm)]
    exact hfbC
  have hfidD : dictGet sD.knowledge_graph.components fid
      = some { name := fd.name, type := "function", file_path := mp,
               id := fid } :=
    processFunction_components_persist mid0 mp gd sC sA.next_id _
      (by omega) hfidC
  have hdefD : fid ∈ (dictGet sD.function_calls gd.name).getD [] :=
    processFunction_fc_mono mid0 mp gd sC gd.name fid hdefC
  have hnD : sC.next_id < sD.next_id := by
    have := processFunction_next mid0 mp gd sC
    rw [← hsD] at this
    omega
  set sE := (processModule mid0 mp post sD).1 with hsE
  have hfbE : dictGet sE.name_bindings fd.name = some fid := by
    rw [hsE, processModule_bindings_not_declared mid0 mp post sD _ hf_post]
    exact hfbD
  have hgbE : dictGet sE.name_bindings gd.name = some gid := by
    rw [hsE, processModule_bindings_not_declared mid0 mp post sD _ hg_post,
      hbD]
    exact dictGet_dictSet_self _ _ _
  have hfidE : dictGet sE.knowledge_graph.components fid
      = some { name := fd.name, type := "function", file_path := mp,
               id := fid } :=
    processModule_components_persist mid0 mp post sD sA.next_id _
      (by omega) hfidD
  have hgidE : dictGet sE.knowledge_graph.components gid
      = some { name := gd.name, type := "function", file_path := mp,
               id := gid } :=
    processModule_components_persist mid0 mp post sD sC.next_id _
      (by omega) hgidD
  have hdefE : fid ∈ (dictGet sE.function_calls gd.name).getD [] :=
    processModule_fc_mono mid0 mp post sD gd.name fid hdefD
  refine ⟨fid, gid, processFunctionCalls_bindings sE, hfbE, hgbE, ?_, ?_, ?_⟩
  · rw [processFunctionCalls_components]
    exact hfidE
  · rw [processFunctionCalls_components]
    exact hgidE
  · rcases hvs : dictGet sE.function_calls gd.name with _ | vs
    · rw [hvs] at hdefE
      cases hdefE
    · rw [hvs] at hdefE
      exact processFunctionCalls_emits gd.name gid fid sE.function_calls
        sE vs hvs hdefE hgbE
        (by rw [dictContains, hfidE]; rfl)
        (by rw [dictContains, hgidE]; rfl)

/-- `parse_file` never removes a path from the processed-file set. -/
theorem parseFile_analyzed_mono (st : ParserState) (f : PyFile) (p : String)
    (h : p ∈ st.analyzed_files) : p ∈ (parseFile st f).2.analyzed_files := by
  unfold parseFile
  split
  · exact h
  · dsimp only
    split
    · exact h
    · split
      · rename_i st2 err heq
        have h2 := congrArg (fun q => (Prod.fst q).analyzed_files) heq
        dsimp only at h2
        rw [processModule_analyzed] at h2
        dsimp only at h2
        rw [h2] at h
        exact h
      · rename_i st2 heq
        have h2 := congrArg (fun q => (Prod.fst q).analyzed_files) heq
        dsimp only at h2
        rw [processModule_analyzed] at h2
        dsimp only at h2
        dsimp only
        rw [processFunctionCalls_analyzed, ← h2]
        split
        · exact h
        · exact List.mem_append_left _ h

/-- The only path `parse_file` can add to the processed-file set is the
parsed file's own path, and only when its content parses. -/
theorem parseFile_analyzed_new (st : ParserState) (f : PyFile) (p : String)
    (h : p ∈ (parseFile st f).2.analyzed_files) :
    p ∈ st.analyzed_files ∨
      (p = f.path ∧ ∃ ds, f.content = FileContent.good ds) := by
  unfold parseFile at h
  split at h
  · exact .inl h
  · revert h
    dsimp only
    split
    · exact fun h => .inl h
    · rename_i decls hc
      split
      · rename_i st2 err heq
        intro h
        have h2 := congrArg (fun q => (Prod.fst q).analyzed_files) heq
        dsimp only at h2
        rw [processModule_analyzed] at h2
        dsimp only at h2
        dsimp only at h
        rw [← h2] at h
        exact .inl h
      · rename_i st2 heq
        have h2 := congrArg (fun q => (Prod.fst q).analyzed_files) heq
        dsimp only at h2
        rw [processModule_analyzed] at h2
        dsimp only at h2
        dsimp only
        rw [processFunctionCalls_analyzed, ← h2]
        split
        · exact fun h => .inl h
        · intro h
          rcases List.mem_append.mp h with h | h
          · exact .inl h
          · simp at h
            exact .inr ⟨h, decls, hc⟩

/-- A file whose content parses is marked analyzed by `parse_file` (no
exception interrupts the walk: the module component is inserted before the
body is processed, so every `contains` insertion finds its endpoints). -/
theorem parseFile_good_analyzed (st : ParserState) (f : PyFile)
    (ds : List FunctionDef) (hc : f.content = FileContent.good ds) :
    f.path ∈ (parseFile st f).2.analyzed_files := by
  by_cases hmem : f.path ∈ st.analyzed_files
  · exact parseFile_analyzed_mono st f _ hmem
  · simp only [parseFile, if_neg hmem, hc]
    rw [processModule_ok]
    · dsimp only
      rw [processFunctionCalls_analyzed, processModule_analyzed]
      dsimp only
      rw [if_neg hmem]
      simp
    · simp [addComponent, dictContains, dictGet_dictSet_self]

/-- A binding `dictGet` finds is a member of the association list. -/
theorem dictGet_mem {α : Type} (d : List (String × α)) (k : String) (v : α)
    (h : dictGet d k = some v) : (k, v) ∈ d := by
  induction d with
  | nil => cases h
  | cons hd rest ih =>
    obtain ⟨k', v'⟩ := hd
    by_cases hk : k' = k
    · subst hk
      have hv : v' = v := by simpa [dictGet] using h
      subst hv
      exact List.mem_cons_self _ _
    · simp only [dictGet, if_neg hk] at h
      exact List.mem_cons_of_mem _ (ih h)

/-- A recorded path extends by one outgoing edge at its end. -/
theorem edgePath_append_one (g : KnowledgeGraph) (s : String) :
    ∀ (p : List String) (v : String), EdgePath g s p v →
      ∀ r : Relationship, r ∈ getOutgoingRelationships g v →
      EdgePath g s (p ++ [r.id]) r.target_id := by
  intro p v h
  induction h with
  | refl x =>
    intro r hr
    exact .step x _ r [] hr (.refl _)
  | step x z r0 rest hr0 htail ih =>
    intro r hr
    exact .step x _ r0 _ hr0 (ih r hr)

/-- A path starting inside a successor-closed visited set ends inside
it. -/
theorem edgePath_closed (g : KnowledgeGraph) (V : List String)
    (hcl : ∀ u ∈ V, ∀ r ∈ getOutgoingRelationships g u, r.target_id ∈ V) :
    ∀ (x : String) (p : List String) (u : String),
      EdgePath g x p u → x ∈ V → u ∈ V := by
  intro x p u h
  induction h with
  | refl _ => exact id
  | step x z r rest hr _ ih =>
    intro hx
    exact ih (hcl x hx r hr)

/-- A path that starts inside the visited set and ends outside it crosses
the frontier: it splits at the first edge whose target is unvisited. -/
theorem edgePath_exit (g : KnowledgeGraph) (V : List String) :
    ∀ (x : String) (p : List String) (u : String), EdgePath g x p u →
      x ∈ V → u ∉ V →
      ∃ (y : String) (r : Relationship) (p1 p2 : List String),
        p = p1 ++ r.id :: p2 ∧ EdgePath g x p1 y ∧ y ∈ V ∧
        r ∈ getOutgoingRelationships g y ∧ r.target_id ∉ V ∧
        EdgePath g r.target_id p2 u := by
  intro x p u h
  induction h with
  | refl x =>
    intro hx hu
    exact absurd hx hu
  | step x z r rest hr htail ih =>
    intro hx hu
    by_cases hrt : r.target_id ∈ V
    · rcases ih hrt hu with ⟨y, r', p1, p2, hsplit, hp1, hyV, hr', hntV, hp2⟩
      exact ⟨y, r', r.id :: p1, p2, by rw [hsplit]; rfl,
        .step x y r p1 hr hp1, hyV, hr', hntV, hp2⟩
    · exact ⟨x, r, [], rest, rfl, .refl x, hx, hr, hrt, htail⟩

/-- Every target stored in the outgoing index is listed in
`allIndexTargets`. -/
theorem mem_allIndexTargets (g : KnowledgeGraph) (k : String)
    (rel : Relationship) (h : rel ∈ getOutgoingRelationships g k) :
    rel.target_id ∈ allIndexTargets g := by
  unfold getOutgoingRelationships at h
  unfold allIndexTargets
  rcases hget : dictGet g.outgoing_relationships k with _ | bucket
  · rw [hget] at h
    cases h
  · rw [hget] at h
    simp only [Option.getD_some] at h
    refine List.mem_map.mpr ⟨rel, ?_, rfl⟩
    exact List.mem_flatten.mpr
      ⟨bucket, List.mem_map.mpr ⟨(k, bucket), dictGet_mem _ _ _ hget, rfl⟩, h⟩

/-- Marking a fresh outgoing-index target visited strictly decreases the
count of unvisited targets. -/
theorem countUnvisited_push (g : KnowledgeGraph) (V : List String)
    (w : String) (hw : w ∈ allIndexTargets g) (hwV : w ∉ V) :
    countUnvisited g (V ++ [w]) + 1 ≤ countUnvisited g V := by
  unfold countUnvisited
  rw [← List.countP_eq_length_filter, ← List.countP_eq_length_filter]
  have main : ∀ l : List String, w ∈ l →
      l.countP (fun x => decide (x ∉ V ++ [w])) + 1 ≤
      l.countP (fun x => decide (x ∉ V)) := by
    intro l
    induction l with
    | nil => intro hmem; cases hmem
    | cons a l2 ih =>
      intro hmem
      rw [List.countP_cons, List.countP_cons]
      by_cases haw : a = w
      · subst haw
        have h1 : (decide (a ∉ V ++ [a])) = false := by simp
        have h2 : (decide (a ∉ V)) = true := by simpa using hwV
        rw [h1, h2]
        simp only [Bool.false_eq_true, if_false, if_true]
        have := List.countP_mono_left (l := l2)
          (p := fun x => decide (x ∉ V ++ [a]))
          (q := fun x => decide (x ∉ V))
          (fun x _ hx => by
            simp only [decide_eq_true_eq, List.mem_append] at hx ⊢
            exact fun hv => hx (Or.inl hv))
        omega
      · have heq : (decide (a ∉ V ++ [w])) = (decide (a ∉ V)) := by
          simp only [List.mem_append, List.mem_singleton]
          by_cases hav : a ∈ V
          · simp [hav]
          · simp [hav, haw]
        have hmem2 : w ∈ l2 := by
          rcases List.mem_cons.mp hmem with h | h
          · exact absurd h.symm haw
          · exact h
        rw [heq]
        have := ih hmem2
        omega
  exact main _ hw

/-- With duplicate-free relationship ids, `find?` by id recovers exactly
the stored relationship. -/
theorem find_id_eq (l : List Relationship)
    (hnd : (l.map Relationship.id).Nodup) (r : Relationship) (hr : r ∈ l) :
    l.find? (fun x => x.id == r.id) = some r := by
  induction l with
  | nil => cases hr
  | cons a l2 ih =>
    obtain ⟨hna, hnd2⟩ := List.nodup_cons.mp hnd
    rcases List.mem_cons.mp hr with rfl | hr2
    · exact List.find?_cons_of_pos _ (by simp)
    · have hne : (a.id == r.id) = false := by
        simp only [beq_eq_false_iff_ne, ne_eq]
        intro hid
        exact hna (hid ▸ List.mem_map_of_mem Relationship.id hr2)
      rw [List.find?_cons_of_neg _ (by simp [hne]), ih hnd2 hr2]

/-- Every relationship stored in the outgoing index is in the relationship
list (the store invariant maintained by `add_relationship`). -/
theorem mem_relationships_of_outgoing (g : KnowledgeGraph)
    (H1 : ∀ kv ∈ g.outgoing_relationships, ∀ r ∈ kv.2, r ∈ g.relationships)
    (k : String) (r : Relationship)
    (hr : r ∈ getOutgoingRelationships g k) : r ∈ g.relationships := by
  unfold getOutgoingRelationships at hr
  rcases hget : dictGet g.outgoing_relationships k with _ | bucket
  · rw [hget] at hr
    cases hr
  · rw [hget] at hr
    exact H1 (k, bucket) (dictGet_mem _ _ _ hget) r hr

/-- On a consistent store, the path-reconstruction loop of `find_path`
succeeds on any walked edge path: it finds each relationship by id and
pairs it with the component stored under its target. -/
theorem reconLoop_ok (g : KnowledgeGraph)
    (H1 : ∀ kv ∈ g.outgoing_relationships, ∀ r ∈ kv.2, r ∈ g.relationships)
    (H2 : (g.relationships.map Relationship.id).Nodup)
    (H3 : ∀ r ∈ g.relationships, (dictGet g.components r.target_id).isSome = true) :
    ∀ (x : String) (ids : List String) (v : String), EdgePath g x ids v →
    ∀ acc, ∃ res, reconLoop g ids acc = .ok (acc ++ res) ∧
      res.map (fun pr => pr.2.id) = ids ∧
      ∀ pr ∈ res, dictGet g.components pr.2.target_id = some pr.1 := by
  intro x ids v h
  induction h with
  | refl y =>
    intro acc
    exact ⟨[], by simp [reconLoop], rfl, by simp⟩
  | step x z r rest hr htail ih =>
    intro acc
    have hrel : r ∈ g.relationships := mem_relationships_of_outgoing g H1 x r hr
    have hfind : g.relationships.find? (fun x2 => x2.id == r.id) = some r :=
      find_id_eq _ H2 r hrel
    have hc := H3 r hrel
    rcases hcg : dictGet g.components r.target_id with _ | c
    · rw [hcg] at hc
      cases hc
    · obtain ⟨res2, h1, h2, h3⟩ := ih (acc ++ [(c, r)])
      refine ⟨(c, r) :: res2, ?_, ?_, ?_⟩
      · simp only [reconLoop, hfind, hcg, h1]
        simp
      · simp [h2]
      · intro pr hpr
        rcases List.mem_cons.mp hpr with rfl | hpr2
        · exact hcg
        · exact h3 pr hpr2

/-- The BFS neighbour fold only grows the visited set. -/
theorem bfs_fold_vis_mono (q : List String) :
    ∀ (rels : List Relationship) (V : List String)
      (Q : List (String × List String)) (u : String),
      u ∈ V → u ∈ (rels.foldl (findPathStep q) (V, Q)).1 := by
  intro rels
  induction rels with
  | nil => intro V Q u hu; exact hu
  | cons r rels ih =>
    intro V Q u hu
    rw [List.foldl_cons]
    by_cases hm : r.target_id ∈ V
    · have hstep : findPathStep q (V, Q) r = (V, Q) := by
        simp [findPathStep, hm]
      rw [hstep]
      exact ih V Q u hu
    · have hstep : findPathStep q (V, Q) r =
          (V ++ [r.target_id], Q ++ [(r.target_id, q ++ [r.id])]) := by
        simp [findPathStep, hm]
      rw [hstep]
      exact ih _ _ u (List.mem_append_left _ hu)

/-- After the BFS neighbour fold, the target of every folded relationship
is visited. -/
theorem bfs_fold_targets_visited (q : List String) :
    ∀ (rels : List Relationship) (V : List String)
      (Q : List (String × List String)),
      ∀ r ∈ rels, r.target_id ∈ (rels.foldl (findPathStep q) (V, Q)).1 := by
  intro rels
  induction rels with
  | nil => intro V Q r hr; cases hr
  | cons r0 rels ih =>
    intro V Q r hr
    rw [List.foldl_cons]
    rcases List.mem_cons.mp hr with rfl | hr2
    · by_cases hm : r.target_id ∈ V
      · have hstep : findPathStep q (V, Q) r = (V, Q) := by
          simp [findPathStep, hm]
        rw [hstep]
        exact bfs_fold_vis_mono q rels V Q _ hm
      · have hstep : findPathStep q (V, Q) r =
            (V ++ [r.target_id], Q ++ [(r.target_id, q ++ [r.id])]) := by
          simp [findPathStep, hm]
        rw [hstep]
        exact bfs_fold_vis_mono q rels _ _ _ (by simp)
    · rcases hstep : findPathStep q (V, Q) r0 with ⟨V2, Q2⟩
      exact ih V2 Q2 r hr2

/-- The BFS frontier argument: a freshly enqueued neighbour of the popped
node `v` (whose path `q` is minimal) inherits minimality — any path to an
unvisited node must cross the frontier, which costs at least
`q.length + 1` edges. -/
theorem bfs_push_minimal (g : KnowledgeGraph) (s v : String)
    (q : List String) (V : List String)
    (Q : List (String × List String)) (hstart : s ∈ V)
    (hlower : ∀ e ∈ Q, q.length ≤ e.2.length)
    (hminQ : ∀ e ∈ Q, ∀ p, EdgePath g s p e.1 → e.2.length ≤ p.length)
    (hclosed : ∀ u ∈ V, (∃ e ∈ Q, e.1 = u) ∨
      (∀ r ∈ getOutgoingRelationships g u, r.target_id ∈ V) ∨ u = v)
    (hqmin : ∀ p, EdgePath g s p v → q.length ≤ p.length)
    (w : String) (hw : w ∉ V) :
    ∀ p, EdgePath g s p w → q.length + 1 ≤ p.length := by
  intro p hp
  obtain ⟨y, r2, p1, p2, hsplit, hp1, hyV, hr2, hntV, hp2⟩ :=
    edgePath_exit g V s p w hp hstart hw
  have hlen : p.length = p1.length + p2.length + 1 := by
    rw [hsplit]
    simp only [List.length_append, List.length_cons]
    omega
  rcases hclosed y hyV with ⟨e, heQ, he1⟩ | hsc | rfl
  · have h1 := hminQ e heQ p1 (by rw [he1]; exact hp1)
    have h2 := hlower e heQ
    omega
  · exact absurd (hsc r2 hr2) hntV
  · have := hqmin p1 hp1
    omega

/-- One step of the BFS neighbour fold preserves the mid-iteration
invariant and does not increase the sum of queue length and unvisited
count. -/
theorem bfs_step_mid (g : KnowledgeGraph) (s t v : String) (q : List String)
    (hq : EdgePath g s q v)
    (hqmin : ∀ p, EdgePath g s p v → q.length ≤ p.length)
    (r : Relationship) (hr : r ∈ getOutgoingRelationships g v)
    (V : List String) (Q : List (String × List String))
    (hmid : BfsMid g s t v q V Q) :
    BfsMid g s t v q (findPathStep q (V, Q) r).1 (findPathStep q (V, Q) r).2 ∧
    (findPathStep q (V, Q) r).2.length +
        countUnvisited g (findPathStep q (V, Q) r).1 ≤
      Q.length + countUnvisited g V := by
  by_cases hm : r.target_id ∈ V
  · have hstep : findPathStep q (V, Q) r = (V, Q) := by
      simp [findPathStep, hm]
    rw [hstep]
    exact ⟨hmid, le_refl _⟩
  · have hstep : findPathStep q (V, Q) r =
        (V ++ [r.target_id], Q ++ [(r.target_id, q ++ [r.id])]) := by
      simp [findPathStep, hm]
    rw [hstep]
    constructor
    · refine ⟨?_, ?_, ?_, ?_, ?_, ?_, ?_, ?_, ?_⟩
      · intro e he
        rcases List.mem_append.mp he with h | h
        · exact hmid.entries_path e h
        · have he2 := List.mem_singleton.mp h
          subst he2
          exact edgePath_append_one g s q v hq r hr
      · intro e he
        rcases List.mem_append.mp he with h | h
        · exact List.mem_append_left _ (hmid.entries_vis e h)
        · have he2 := List.mem_singleton.mp h
          subst he2
          simp
      · exact List.mem_append_left _ hmid.start_vis
      · refine List.pairwise_append.mpr ⟨hmid.sorted, List.pairwise_singleton _ _, ?_⟩
        intro e1 h1 e2 h2
        have he2 := List.mem_singleton.mp h2
        subst he2
        have := hmid.upper e1 h1
        simp only [List.length_append, List.length_cons, List.length_nil]
        omega
      · intro e he
        rcases List.mem_append.mp he with h | h
        · exact hmid.lower e h
        · have he2 := List.mem_singleton.mp h
          subst he2
          simp only [List.length_append, List.length_cons, List.length_nil]
          omega
      · intro e he
        rcases List.mem_append.mp he with h | h
        · have := hmid.upper e h
          omega
        · have he2 := List.mem_singleton.mp h
          subst he2
          simp only [List.length_append, List.length_cons, List.length_nil]
          omega
      · intro e he
        rcases List.mem_append.mp he with h | h
        · exact hmid.minimal e h
        · have he2 := List.mem_singleton.mp h
          subst he2
          intro p hp
          have := bfs_push_minimal g s v q V Q hmid.start_vis hmid.lower
            hmid.minimal hmid.closed hqmin r.target_id hm p hp
          simp only [List.length_append, List.length_cons, List.length_nil]
          omega
      · intro u hu
        rcases List.mem_append.mp hu with h | h
        · rcases hmid.closed u h with ⟨e, he, he1⟩ | hsc | hv
          · exact Or.inl ⟨e, List.mem_append_left _ he, he1⟩
          · exact Or.inr (Or.inl fun r2 hr2 =>
              List.mem_append_left _ (hsc r2 hr2))
          · exact Or.inr (Or.inr hv)
        · have hu2 := List.mem_singleton.mp h
          exact Or.inl ⟨(r.target_id, q ++ [r.id]),
            List.mem_append_right _ (List.mem_singleton_self _), hu2.symm⟩
      · intro ht
        rcases List.mem_append.mp ht with h | h
        · obtain ⟨e, he, he1⟩ := hmid.target_in_queue h
          exact ⟨e, List.mem_append_left _ he, he1⟩
        · have ht2 := List.mem_singleton.mp h
          exact ⟨(r.target_id, q ++ [r.id]),
            List.mem_append_right _ (List.mem_singleton_self _), ht2.symm⟩
    · have hcnt := countUnvisited_push g V r.target_id
        (mem_allIndexTargets g v r hr) hm
      simp only [List.length_append, List.length_cons, List.length_nil]
      omega

/-- The full BFS neighbour fold preserves the mid-iteration invariant and
does not increase the sum of queue length and unvisited count. -/
theorem bfs_fold_mid (g : KnowledgeGraph) (s t v : String) (q : List String)
    (hq : EdgePath g s q v)
    (hqmin : ∀ p, EdgePath g s p v → q.length ≤ p.length) :
    ∀ (rem : List Relationship),
      (∀ r ∈ rem, r ∈ getOutgoingRelationships g v) →
    ∀ (V : List String) (Q : List (String × List String)),
      BfsMid g s t v q V Q →
      BfsMid g s t v q (rem.foldl (findPathStep q) (V, Q)).1
          (rem.foldl (findPathStep q) (V, Q)).2 ∧
      (rem.foldl (findPathStep q) (V, Q)).2.length +
          countUnvisited g (rem.foldl (findPathStep q) (V, Q)).1 ≤
        Q.length + countUnvisited g V := by
  intro rem
  induction rem with
  | nil =>
    intro _ V Q hmid
    exact ⟨hmid, le_refl _⟩
  | cons r rem ih =>
    intro hsub V Q hmid
    obtain ⟨hmid2, hcnt2⟩ := bfs_step_mid g s t v q hq hqmin r
      (hsub r (List.mem_cons_self r rem)) V Q hmid
    rw [List.foldl_cons]
    rcases hstep : findPathStep q (V, Q) r with ⟨V2, Q2⟩
    rw [hstep] at hmid2 hcnt2
    obtain ⟨h1, h2⟩ := ih (fun r2 h => hsub r2 (List.mem_cons_of_mem _ h))
      V2 Q2 hmid2
    exact ⟨h1, le_trans h2 hcnt2⟩

/-- Master lemma for the BFS `while` loop of `find_path`: from any state
satisfying the loop invariant, with fuel above the remaining-work bound,
the loop either returns the reconstruction of a shortest edge path to the
target or returns `[]` when no path exists. -/
theorem findPathLoop_master (g : KnowledgeGraph) (s t : String)
    (H1 : ∀ kv ∈ g.outgoing_relationships, ∀ r ∈ kv.2, r ∈ g.relationships)
    (H2 : (g.relationships.map Relationship.id).Nodup)
    (H3 : ∀ r ∈ g.relationships, (dictGet g.components r.target_id).isSome = true) :
    ∀ (fuel : Nat) (V : List String) (Q : List (String × List String)),
      BfsInv g s t V Q →
      Q.length + countUnvisited g V < fuel →
      (∃ ids res, EdgePath g s ids t ∧
        (∀ p, EdgePath g s p t → ids.length ≤ p.length) ∧
        findPathLoop g t fuel V Q = .ok res ∧
        res.map (fun pr => pr.2.id) = ids ∧
        (∀ pr ∈ res, dictGet g.components pr.2.target_id = some pr.1)) ∨
      (findPathLoop g t fuel V Q = .ok [] ∧ ∀ p, ¬ EdgePath g s p t) := by
  intro fuel
  induction fuel with
  | zero =>
    intro V Q _ hb
    omega
  | succ n ih =>
    intro V Q hinv hb
    rcases Q with _ | ⟨⟨v, q⟩, rest⟩
    · right
      constructor
      · rfl
      · intro p hp
        have hclosed : ∀ u ∈ V, ∀ r ∈ getOutgoingRelationships g u,
            r.target_id ∈ V := by
          intro u hu
          rcases hinv.closed u hu with ⟨e, he, _⟩ | hsc
          · cases he
          · exact hsc
        have htV : t ∈ V :=
          edgePath_closed g V hclosed s p t hp hinv.start_vis
        obtain ⟨e, he, _⟩ := hinv.target_in_queue htV
        cases he
    · have hq : EdgePath g s q v :=
        hinv.entries_path (v, q) (List.mem_cons_self _ _)
      have hqmin : ∀ p, EdgePath g s p v → q.length ≤ p.length :=
        hinv.minimal (v, q) (List.mem_cons_self _ _)
      by_cases hvt : v = t
      · left
        obtain ⟨res, h1, h2, h3⟩ := reconLoop_ok g H1 H2 H3 s q v hq []
        refine ⟨q, res, hvt ▸ hq, hvt ▸ hqmin, ?_, h2, h3⟩
        have hunf : findPathLoop g t (n + 1) V ((v, q) :: rest) =
            reconLoop g q [] := by
          rw [findPathLoop, if_pos hvt]
        rw [hunf, h1]
        simp
      · have hmid : BfsMid g s t v q V rest := by
          refine ⟨?_, ?_, hinv.start_vis, ?_, ?_, ?_, ?_, ?_, ?_⟩
          · intro e he
            exact hinv.entries_path e (List.mem_cons_of_mem _ he)
          · intro e he
            exact hinv.entries_vis e (List.mem_cons_of_mem _ he)
          · exact (List.pairwise_cons.mp hinv.sorted).2
          · intro e he
            exact (List.pairwise_cons.mp hinv.sorted).1 e he
          · intro e he
            exact hinv.window e (List.mem_cons_of_mem _ he) (v, q)
              (List.mem_cons_self _ _)
          · intro e he
            exact hinv.minimal e (List.mem_cons_of_mem _ he)
          · intro u hu
            rcases hinv.closed u hu with ⟨e, he, he1⟩ | hsc
            · rcases List.mem_cons.mp he with rfl | he2
              · exact Or.inr (Or.inr he1.symm)
              · exact Or.inl ⟨e, he2, he1⟩
            · exact Or.inr (Or.inl hsc)
          · intro ht
            obtain ⟨e, he, he1⟩ := hinv.target_in_queue ht
            rcases List.mem_cons.mp he with rfl | he2
            · exact absurd he1 hvt
            · exact ⟨e, he2, he1⟩
        obtain ⟨hmid2, hcnt⟩ := bfs_fold_mid g s t v q hq hqmin
          (getOutgoingRelationships g v) (fun r h => h) V rest hmid
        have hinv2 : BfsInv g s t
            ((getOutgoingRelationships g v).foldl (findPathStep q) (V, rest)).1
            ((getOutgoingRelationships g v).foldl (findPathStep q) (V, rest)).2 := by
          refine ⟨hmid2.entries_path, hmid2.entries_vis, hmid2.start_vis,
            hmid2.sorted, ?_, hmid2.minimal, ?_, hmid2.target_in_queue⟩
          · intro e1 h1 e2 h2
            have hu := hmid2.upper e1 h1
            have hl := hmid2.lower e2 h2
            omega
          · intro u hu
            rcases hmid2.closed u hu with hque | hsc | huv
            · exact Or.inl hque
            · exact Or.inr hsc
            · exact Or.inr fun r hr =>
                bfs_fold_targets_visited q (getOutgoingRelationships g v)
                  V rest r (huv ▸ hr)
        have hb2 : ((getOutgoingRelationships g v).foldl (findPathStep q)
            (V, rest)).2.length + countUnvisited g
            ((getOutgoingRelationships g v).foldl (findPathStep q)
              (V, rest)).1 < n := by
          have hb3 : rest.length + 1 + countUnvisited g V < n + 1 := by
            simpa using hb
          omega
        have hrec := ih _ _ hinv2 hb2
        have hunf : findPathLoop g t (n + 1) V ((v, q) :: rest) =
            findPathLoop g t n
              ((getOutgoingRelationships g v).foldl (findPathStep q) (V, rest)).1
              ((getOutgoingRelationships g v).foldl (findPathStep q) (V, rest)).2 := by
          rw [findPathLoop, if_neg hvt]
        rw [hunf]
        exact hrec

/-- Case analysis on a `ReachWithin` derivation (inversion with all
indices free, so it applies at concrete endpoints). -/
theorem reachWithin_inv (g : KnowledgeGraph) (ts : List String) (n : Nat)
    (x z : String) (h : ReachWithin g ts n x z) :
    x = z ∨ ∃ r m, n = m + 1 ∧ r ∈ getOutgoingRelationships g x ∧
      r.type ∈ ts ∧ ReachWithin g ts m r.target_id z := by
  cases h with
  | refl => exact .inl rfl
  | step m _ _ r h1 h2 h3 => exact .inr ⟨r, m, rfl, h1, h2, h3⟩

/-- Concrete evaluation of the bounded DFS on the chain store a→b→c with
`max_depth = 1` (the well-founded recursion is evaluated through its
equation lemmas). -/
theorem analyzeComponentDependencies_graphChain_eval :
    analyzeComponentDependencies graphChain "a" (some ["calls"]) 1
      = [("calls", ["b", "c"])] := by
  simp [analyzeComponentDependencies, analyzeDependenciesRecursive,
    analyzeDependenciesLoop, getOutgoingRelationships, graphChain,
    seedRelationship, addRelationship, addComponent, compA, compB, compC,
    relAB, relBC, dictAppend, dictGet, dictSet, dictContains, dictAddToSet,
    KnowledgeGraph.empty]

/-- Soundness of the depth-bounded DFS: whatever
`_analyze_dependencies_recursive` adds to the result map beyond what was
already there is reachable from the node it was invoked on within
`max_depth + 1 - current_depth` type-filtered outgoing hops. -/
theorem analyzeDependenciesRecursive_sound (g : KnowledgeGraph)
    (ts : List String) (m : Nat) :
    ∀ fuel d, m + 1 - d ≤ fuel → ∀ cid res vis k x,
      x ∈ bucketOf (analyzeDependenciesRecursive g ts m cid res vis d) k →
      x ∈ bucketOf res k ∨ ReachWithin g ts (m + 1 - d) cid x := by
  intro fuel
  induction fuel with
  | zero =>
    intro d hd cid res vis k x hx
    unfold analyzeDependenciesRecursive at hx
    by_cases hv : cid ∈ vis
    · rw [if_pos hv] at hx
      exact .inl hx
    · rw [if_neg hv] at hx
      have hdm : d > m := by omega
      rw [if_pos hdm] at hx
      exact .inl hx
  | succ fuel ih =>
    intro d hd cid res vis k x hx
    unfold analyzeDependenciesRecursive at hx
    by_cases hv : cid ∈ vis
    · rw [if_pos hv] at hx
      exact .inl hx
    · rw [if_neg hv] at hx
      by_cases hdm : d > m
      · rw [if_pos hdm] at hx
        exact .inl hx
      · rw [if_neg hdm] at hx
        have inner : ∀ rels res',
            (∀ rel ∈ rels, rel ∈ getOutgoingRelationships g cid ∧ rel.type ∈ ts) →
            ∀ x k,
              x ∈ bucketOf
                (analyzeDependenciesLoop g ts m rels res' (cid :: vis) d) k →
              x ∈ bucketOf res' k ∨ ReachWithin g ts (m + 1 - d) cid x := by
          intro rels
          induction rels with
          | nil =>
            intro res' _ x k hx
            unfold analyzeDependenciesLoop at hx
            exact .inl hx
          | cons rel rest ihr =>
            intro res' hmem x k hx
            unfold analyzeDependenciesLoop at hx
            rcases ihr _ (fun r hr => hmem r (List.mem_cons_of_mem _ hr)) x k hx
              with h | h
            · by_cases hlt : d < m
              · rw [dif_pos hlt] at h
                rcases ih (d + 1) (by omega) rel.target_id _ (cid :: vis) k x h
                  with h2 | h2
                · rcases mem_bucketOf_dictAddToSet _ _ _ _ _ h2 with h3 | ⟨hk, hxv⟩
                  · exact .inl h3
                  · right
                    have hr := hmem rel (List.mem_cons_self _ _)
                    have hstep : ReachWithin g ts ((m - d) + 1) cid rel.target_id :=
                      .step _ _ _ rel hr.1 hr.2 (hxv ▸ .refl _ _)
                    have he2 : m + 1 - d = (m - d) + 1 := by omega
                    rw [he2]
                    exact hxv ▸ hstep
                · right
                  have hr := hmem rel (List.mem_cons_self _ _)
                  have he : m + 1 - (d + 1) = m - d := by omega
                  rw [he] at h2
                  have he2 : m + 1 - d = (m - d) + 1 := by omega
                  rw [he2]
                  exact .step _ _ _ rel hr.1 hr.2 h2
              · rw [dif_neg hlt] at h
                rcases mem_bucketOf_dictAddToSet _ _ _ _ _ h with h3 | ⟨hk, hxv⟩
                · exact .inl h3
                · right
                  have hr := hmem rel (List.mem_cons_self _ _)
                  have he2 : m + 1 - d = (m - d) + 1 := by omega
                  rw [he2]
                  exact .step _ _ _ rel hr.1 hr.2 (hxv ▸ .refl _ _)
            · exact .inr h
        exact inner _ res
          (fun rel hr => ⟨(List.mem_filter.mp hr).1, by
            have := (List.mem_filter.mp hr).2
            simpa using this⟩) x k hx

/-- C1.  The referential-integrity claim fails on the code: in the store
holding components `a`, `b` and the `calls` edge a→b (whose insertion
succeeded), `remove_component("b")` returns `true` and removes `b` and the
edge from the relationship list, yet the edge — whose `target_id` is the
removed `"b"` — is still observable through `get_outgoing_relationships("a")`:
`remove_component` deletes only the removed id's *own* outgoing/incoming
index entries (graph.py:208-212) and never purges the edge from the other
endpoint's bucket. -/
theorem C1_dangling_edge_observable_after_remove :
    addRelationship (addComponent (addComponent .empty compA) compB) relAB
      = .ok graphAB ∧
    (removeComponent graphAB "b").1 = true ∧
    getComponent (removeComponent graphAB "b").2 "b" = none ∧
    getAllRelationships (removeComponent graphAB "b").2 = [] ∧
    getOutgoingRelationships (removeComponent graphAB "b").2 "a" = [relAB] := by
  decide

/-- C4.  The index-consistency claim fails on the code: overwriting id `x`
(component named `n` of type `function`, then a component named `n` of
type `class` under the same id) leaves the name index holding *both* the
stale overwritten component and the new one, while the component map holds
only the new one — `add_component` appends to the indices without removing
the overwritten component's entries (graph.py:132-139). -/
theorem C4_overwrite_leaves_stale_name_index :
    getComponent
        (addComponent (addComponent .empty
          { name := "n", type := "function", id := "x" })
          { name := "n", type := "class", id := "x" }) "x"
      = some { name := "n", type := "class", id := "x" } ∧
    getComponentByName
        (addComponent (addComponent .empty
          { name := "n", type := "function", id := "x" })
          { name := "n", type := "class", id := "x" }) "n"
      = [{ name := "n", type := "function", id := "x" },
         { name := "n", type := "class", id := "x" }] ∧
    getComponentsByType
        (addComponent (addComponent .empty
          { name := "n", type := "function", id := "x" })
          { name := "n", type := "class", id := "x" }) "function"
      = [{ name := "n", type := "function", id := "x" }] := by
  decide

/-- C2.  `add_relationship` fails (raising the spec's `ReferenceError`,
Python's `ValueError`) exactly when the source id or the target id is not a
stored component.  The error is the call's result — propagated, not
swallowed — and the checks precede every mutation in the source
(graph.py:148-152 before 162-167), so a failing call leaves the store
untouched. -/
theorem C2_add_relationship_error_iff (g : KnowledgeGraph) (r : Relationship) :
    (∃ e, addRelationship g r = .error e) ↔
      (getComponent g r.source_id = none ∨ getComponent g r.target_id = none) := by
  unfold addRelationship
  by_cases hs : dictContains g.components r.source_id
  · by_cases ht : dictContains g.components r.target_id
    · constructor
      · rintro ⟨e, he⟩
        rw [if_neg (by simp [hs])] at he
        rw [if_neg (by simp [ht])] at he
        split at he <;> simp at he
      · intro h
        exfalso
        rcases h with h | h
        · simp only [getComponent] at h
          simp [dictContains, h] at hs
        · simp only [getComponent] at h
          simp [dictContains, h] at ht
    · constructor
      · intro _
        right
        simpa [getComponent, dictContains, Option.isSome_iff_ne_none] using ht
      · intro _
        refine ⟨"Target component " ++ r.target_id ++ " does not exist", ?_⟩
        rw [if_neg (by simp [hs]), if_pos ht]
  · constructor
    · intro _
      left
      simpa [getComponent, dictContains, Option.isSome_iff_ne_none] using hs
    · intro _
      refine ⟨"Source component " ++ r.source_id ++ " does not exist", ?_⟩
      rw [if_pos hs]

/-- C2 witness: on the concrete two-component store, adding an edge whose
target `"z"` is absent fails, and adding the a→b edge whose endpoints
exist does not. -/
theorem C2_add_relationship_error_iff_witness :
    (∃ e, addRelationship (addComponent (addComponent .empty compA) compB)
        { source_id := "a", target_id := "z", type := "calls", id := "rz" }
      = .error e) ∧
    ¬ (∃ e, addRelationship (addComponent (addComponent .empty compA) compB)
        relAB = .error e) := by
  constructor
  · exact (C2_add_relationship_error_iff
      (addComponent (addComponent .empty compA) compB)
      { source_id := "a", target_id := "z", type := "calls", id := "rz" }).2
      (by decide)
  · intro h
    have := (C2_add_relationship_error_iff
      (addComponent (addComponent .empty compA) compB) relAB).1 h
    revert this
    decide

/-- C3 counterexample.  On the concrete 3-cycle store a→b→c→a,
`find_circular_dependencies()` returns three cycles — one per start node of
the depth-first sweep — and they are rotations of one another (the second
cycle's core `[b, c, a]` is the first cycle's core `[a, b, c]` rotated by
one), refuting the claim that no two returned cycles are rotations of the
same loop: the code performs no normalization or deduplication
(dependency.py:281-335). -/
theorem C3_rotations_not_deduplicated :
    findCircularDependencies (cycleStore "a" "b" "c")
      = [["a", "b", "c", "a"], ["b", "c", "a", "b"], ["c", "a", "b", "c"]] ∧
    (["b", "c", "a", "b"] : List String).dropLast
      = (["a", "b", "c", "a"] : List String).dropLast.rotate 1 := by
  constructor
  · simp [findCircularDependencies, cycleStore, analyzeCalls,
      getAllRelationships, seedRelationship, addRelationship, addComponent,
      dictAppend, dictGet, dictSet, dictContains, dictAddToSet,
      KnowledgeGraph.empty, findCircularRecursive, findCircularLoop,
      eraseFirst]
  · decide

/-- C3 (amended: rotations are *not* deduplicated).  For every store whose
`calls` relationships form exactly the directed cycle a→b→c→a over three
function components with pairwise-distinct ids,
`find_circular_dependencies()` returns exactly the three rotations of the
loop, one per start node — so at least one returned cycle contains all
three of a, b, c, but each loop appears once per rotation rather than once
in normalized form. -/
theorem C3_cycle_detection_all_rotations (a b c : String)
    (hab : a ≠ b) (hac : a ≠ c) (hbc : b ≠ c) :
    findCircularDependencies (cycleStore a b c)
      = [[a, b, c, a], [b, c, a, b], [c, a, b, c]] ∧
    ∃ cyc ∈ findCircularDependencies (cycleStore a b c),
      a ∈ cyc ∧ b ∈ cyc ∧ c ∈ cyc := by
  have heq : findCircularDependencies (cycleStore a b c)
      = [[a, b, c, a], [b, c, a, b], [c, a, b, c]] := by
    simp [findCircularDependencies, cycleStore, analyzeCalls,
      getAllRelationships, seedRelationship, addRelationship, addComponent,
      dictAppend, dictGet, dictSet, dictContains, dictAddToSet,
      KnowledgeGraph.empty, findCircularRecursive, findCircularLoop,
      eraseFirst, hab, hac, hbc, Ne.symm hab, Ne.symm hac, Ne.symm hbc]
  refine ⟨heq, [a, b, c, a], by rw [heq]; simp, by simp, by simp, by simp⟩

/-- C3 witness: the amended theorem applied at the concrete ids
`"a"`, `"b"`, `"c"`. -/
theorem C3_cycle_detection_all_rotations_witness :
    findCircularDependencies (cycleStore "a" "b" "c")
      = [["a", "b", "c", "a"], ["b", "c", "a", "b"], ["c", "a", "b", "c"]] ∧
    ∃ cyc ∈ findCircularDependencies (cycleStore "a" "b" "c"),
      "a" ∈ cyc ∧ "b" ∈ cyc ∧ "c" ∈ cyc :=
  C3_cycle_detection_all_rotations "a" "b" "c" (by decide) (by decide)
    (by decide)

/-- C5 counterexample.  In the chain store a→b→c (`calls` edges),
`analyze_component_dependencies("a", ["calls"], max_depth=1)` returns a
`calls` set containing `c`, yet `c` is not reachable from `a` within
`1` hop: the recursion adds the targets found at `current_depth = max_depth`
(the guard is `current_depth > max_depth`, dependency.py:148, while
recursion descends whenever `current_depth < max_depth`, dependency.py:163),
so hop-distance `max_depth + 1` nodes are included, refuting the claim's
`max_depth`-hop bound.  (The repository's own test pins this behaviour:
`test_analyze_component_dependencies` asserts `func_c1` — three hops out —
is returned for `max_depth=2`, "Also included in our implementation".) -/
theorem C5_hop_bound_exceeded_at_max_depth :
    "c" ∈ bucketOf
        (analyzeComponentDependencies graphChain "a" (some ["calls"]) 1)
        "calls" ∧
    ¬ ReachWithin graphChain ["calls"] 1 "a" "c" := by
  refine ⟨by rw [analyzeComponentDependencies_graphChain_eval]; decide, ?_⟩
  intro h
  rcases reachWithin_inv _ _ _ _ _ h with h0 | ⟨r, m1, hm, hr, _, htail⟩
  · exact absurd h0 (by decide)
  · have hra : r = relAB := by
      have hout : getOutgoingRelationships graphChain "a" = [relAB] := by decide
      rw [hout] at hr
      simpa using hr
    subst hra
    have hm0 : m1 = 0 := by omega
    subst hm0
    rcases reachWithin_inv _ _ _ _ _ htail with h0 | ⟨r', m2, hm2, _, _, _⟩
    · exact absurd h0 (by decide)
    · omega

/-- C5 (amended: the bound is `max_depth + 1`, not `max_depth`).  For every
store, component id, kind list and depth bound, every component id
appearing in any set of the returned map is reachable from the start id by
following at most `max_depth + 1` outgoing relationships, each of a kind
contained in the requested kinds. -/
theorem C5_component_dependencies_depth_bounded (g : KnowledgeGraph)
    (component_id : String) (kinds : List String) (max_depth : Nat)
    (k x : String)
    (hx : x ∈ bucketOf
      (analyzeComponentDependencies g component_id (some kinds) max_depth) k) :
    ReachWithin g kinds (max_depth + 1) component_id x := by
  have hs := analyzeDependenciesRecursive_sound g kinds max_depth
    (max_depth + 1) 0 (by omega) component_id [] [] k x
    (by simpa [analyzeComponentDependencies] using hx)
  rcases hs with h | h
  · simp [bucketOf, dictGet] at h
  · simpa using h

/-- C5 witness: the amended bound applied on the chain store — `c`, found
with `max_depth = 1`, is reachable within `1 + 1 = 2` hops. -/
theorem C5_component_dependencies_depth_bounded_witness :
    ReachWithin graphChain ["calls"] 2 "a" "c" :=
  C5_component_dependencies_depth_bounded graphChain "a" ["calls"] 1 "calls"
    "c" (by rw [analyzeComponentDependencies_graphChain_eval]; decide)

/-- C6.  Forward-reference resolution: for a successfully parsed file whose
top-level declarations put function `fd` before function `gd`, where `fd`'s
body holds a bare-name call to `gd`'s name that is unresolvable when `fd`
is visited (the name is not the module name and is not declared before
`fd`) and where neither name is re-declared afterwards, `parse_file`
produces a `calls` relationship from `fd`'s function component to `gd`'s
function component: the call is deferred while `fd` is walked and replayed
after the whole body is walked, when `gd`'s name is bound. -/
theorem C6_forward_reference_calls_edge (st : ParserState) (f : PyFile)
    (pre mid post : List FunctionDef) (fd gd : FunctionDef)
    (hc : f.content = FileContent.good (pre ++ fd :: (mid ++ gd :: post)))
    (hnotan : f.path ∉ st.analyzed_files)
    (hcall : gd.name ∈ fd.calls)
    (hfg : fd.name ≠ gd.name)
    (hg_stem : gd.name ≠ f.stem)
    (hg_pre : gd.name ∉ pre.map FunctionDef.name)
    (hg_post : gd.name ∉ post.map FunctionDef.name)
    (hf_mid : fd.name ∉ mid.map FunctionDef.name)
    (hf_post : fd.name ∉ post.map FunctionDef.name) :
    ∃ fid gid,
      dictGet (parseFile st f).2.name_bindings fd.name = some fid ∧
      dictGet (parseFile st f).2.name_bindings gd.name = some gid ∧
      getComponent (parseFile st f).2.knowledge_graph fid
        = some { name := fd.name, type := "function",
                 file_path := some f.path, id := fid } ∧
      getComponent (parseFile st f).2.knowledge_graph gid
        = some { name := gd.name, type := "function",
                 file_path := some f.path, id := gid } ∧
      ∃ rel ∈ (parseFile st f).2.knowledge_graph.relationships,
        rel.source_id = fid ∧ rel.target_id = gid ∧ rel.type = "calls" := by
  simp only [parseFile, if_neg hnotan, hc]
  rw [processModule_ok _ _ _ _
    (by rw [dictContains, addComponent_components, dictGet_dictSet_self]
        rfl)]
  dsimp only
  rcases moduleWalk_forward_reference (freshId st.next_id) (some f.path)
      pre mid post fd gd
      { knowledge_graph := addComponent st.knowledge_graph
          { name := f.stem, type := "module", file_path := some f.path,
            id := freshId st.next_id }
        name_bindings := dictSet [] f.stem (freshId st.next_id)
        function_calls := []
        analyzed_files := st.analyzed_files
        next_id := st.next_id + 1 }
      (by rw [dictContains, addComponent_components, dictGet_dictSet_self]
          rfl)
      (by simp [dictSet, dictGet, (Ne.symm hg_stem : f.stem ≠ gd.name)])
      hcall hfg hg_pre hg_post hf_mid hf_post with
    ⟨fid, gid, hbinds, h1, h2, h3, h4, h5⟩
  refine ⟨fid, gid, ?_, ?_, ?_, ?_, ?_⟩
  · rw [hbinds]
    exact h1
  · rw [hbinds]
    exact h2
  · simp only [getComponent]
    exact h3
  · simp only [getComponent]
    exact h4
  · exact h5

/-- C6 witness: parsing `mod.py` holding `def f(): g()` before
`def g(): pass` from a fresh parser yields bindings for both names, their
function components, and the deferred-then-replayed `calls` edge f→g. -/
theorem C6_forward_reference_calls_edge_witness :
    ∃ fid gid,
      dictGet (parseFile ⟨KnowledgeGraph.empty, [], [], [], 0⟩
        ⟨"mod.py", "mod", FileContent.good
          [⟨"f", ["g"]⟩, ⟨"g", []⟩]⟩).2.name_bindings "f" = some fid ∧
      dictGet (parseFile ⟨KnowledgeGraph.empty, [], [], [], 0⟩
        ⟨"mod.py", "mod", FileContent.good
          [⟨"f", ["g"]⟩, ⟨"g", []⟩]⟩).2.name_bindings "g" = some gid ∧
      getComponent (parseFile ⟨KnowledgeGraph.empty, [], [], [], 0⟩
        ⟨"mod.py", "mod", FileContent.good
          [⟨"f", ["g"]⟩, ⟨"g", []⟩]⟩).2.knowledge_graph fid
        = some { name := "f", type := "function",
                 file_path := some "mod.py", id := fid } ∧
      getComponent (parseFile ⟨KnowledgeGraph.empty, [], [], [], 0⟩
        ⟨"mod.py", "mod", FileContent.good
          [⟨"f", ["g"]⟩, ⟨"g", []⟩]⟩).2.knowledge_graph gid
        = some { name := "g", type := "function",
                 file_path := some "mod.py", id := gid } ∧
      ∃ rel ∈ (parseFile ⟨KnowledgeGraph.empty, [], [], [], 0⟩
        ⟨"mod.py", "mod", FileContent.good
          [⟨"f", ["g"]⟩, ⟨"g", []⟩]⟩).2.knowledge_graph.relationships,
        rel.source_id = fid ∧ rel.target_id = gid ∧ rel.type = "calls" :=
  C6_forward_reference_calls_edge ⟨KnowledgeGraph.empty, [], [], [], 0⟩
    ⟨"mod.py", "mod", FileContent.good [⟨"f", ["g"]⟩, ⟨"g", []⟩]⟩
    [] [] [] ⟨"f", ["g"]⟩ ⟨"g", []⟩ rfl (by simp) (by decide) (by decide)
    (by decide) (by decide) (by decide) (by decide) (by decide)

/-- C9.  `parse_directory` tolerates a failing file: it is a total function
of its inputs (no exception escapes — `parse_file` catches `SyntaxError`
and every processing exception internally, python.py:149-154, and the loop
body is additionally wrapped in a `try`, python.py:70-74), every file's
path lands in the returned processed set (the whole batch is visited), and
the set of analyzed files afterwards is exactly the analyzed files before
plus the paths whose content parses — a failing file contributes no parsed
module and does not disturb its siblings. -/
theorem C9_parse_directory_tolerates_bad_files (st : ParserState)
    (files : List PyFile) :
    (∀ f ∈ files, f.path ∈ (parseDirectory st files).1) ∧
    (∀ p, p ∈ (parseDirectory st files).2.analyzed_files ↔
      p ∈ st.analyzed_files ∨
        ∃ f ∈ files, f.path = p ∧ ∃ ds, f.content = FileContent.good ds) := by
  have main : ∀ (files : List PyFile) (acc : List String × ParserState),
      (∀ q ∈ acc.1, q ∈ (files.foldl parseDirectoryStep acc).1) ∧
      (∀ f ∈ files, f.path ∈ (files.foldl parseDirectoryStep acc).1) ∧
      (∀ p, p ∈ (files.foldl parseDirectoryStep acc).2.analyzed_files ↔
        p ∈ acc.2.analyzed_files ∨
          ∃ f ∈ files, f.path = p ∧ ∃ ds, f.content = FileContent.good ds) := by
    intro files
    induction files with
    | nil =>
      intro acc
      refine ⟨fun q hq => hq, by simp, fun p => ?_⟩
      simp
    | cons f fs ih =>
      intro acc
      rw [List.foldl_cons]
      obtain ⟨ih1, ih2, ih3⟩ := ih (parseDirectoryStep acc f)
      refine ⟨?_, ?_, ?_⟩
      · intro q hq
        apply ih1
        simp only [parseDirectoryStep]
        split
        · exact hq
        · exact List.mem_append_left _ hq
      · intro f' hf'
        rcases List.mem_cons.mp hf' with rfl | hf'
        · apply ih1
          simp only [parseDirectoryStep]
          split
          · assumption
          · simp
        · exact ih2 f' hf'
      · intro p
        rw [ih3 p]
        have hstep : p ∈ (parseDirectoryStep acc f).2.analyzed_files ↔
            p ∈ acc.2.analyzed_files ∨
              (p = f.path ∧ ∃ ds, f.content = FileContent.good ds) := by
          simp only [parseDirectoryStep]
          constructor
          · intro h
            exact parseFile_analyzed_new _ _ _ h
          · rintro (h | ⟨rfl, ds, hds⟩)
            · exact parseFile_analyzed_mono _ _ _ h
            · exact parseFile_good_analyzed _ _ ds hds
        rw [hstep]
        constructor
        · rintro ((h | ⟨rfl, hg⟩) | ⟨f', hf', rfl, hg⟩)
          · exact .inl h
          · exact .inr ⟨f, List.mem_cons_self _ _, rfl, hg⟩
          · exact .inr ⟨f', List.mem_cons_of_mem _ hf', rfl, hg⟩
        · rintro (h | ⟨f', hf', rfl, hg⟩)
          · exact .inl (.inl h)
          · rcases List.mem_cons.mp hf' with rfl | hf'
            · exact .inl (.inr ⟨rfl, hg⟩)
            · exact .inr ⟨f', hf', rfl, hg⟩
  exact ⟨(main files ([], st)).2.1, (main files ([], st)).2.2⟩

/-- C9 witness: a directory holding a good file, a file that fails to
parse, and a second good file — both siblings end up parsed and analyzed,
every path (including the bad one) is in the returned processed set, and
the bad file is not analyzed. -/
theorem C9_parse_directory_tolerates_bad_files_witness :
    ("a.py" ∈ (parseDirectory ⟨KnowledgeGraph.empty, [], [], [], 0⟩
      [⟨"a.py", "a", FileContent.good []⟩, ⟨"bad.py", "bad", FileContent.bad⟩,
       ⟨"c.py", "c", FileContent.good []⟩]).1) ∧
    ("bad.py" ∈ (parseDirectory ⟨KnowledgeGraph.empty, [], [], [], 0⟩
      [⟨"a.py", "a", FileContent.good []⟩, ⟨"bad.py", "bad", FileContent.bad⟩,
       ⟨"c.py", "c", FileContent.good []⟩]).1) ∧
    ("c.py" ∈ (parseDirectory ⟨KnowledgeGraph.empty, [], [], [], 0⟩
      [⟨"a.py", "a", FileContent.good []⟩, ⟨"bad.py", "bad", FileContent.bad⟩,
       ⟨"c.py", "c", FileContent.good []⟩]).2.analyzed_files) ∧
    ¬ ("bad.py" ∈ (parseDirectory ⟨KnowledgeGraph.empty, [], [], [], 0⟩
      [⟨"a.py", "a", FileContent.good []⟩, ⟨"bad.py", "bad", FileContent.bad⟩,
       ⟨"c.py", "c", FileContent.good []⟩]).2.analyzed_files) := by
  refine ⟨?_, ?_, ?_, ?_⟩
  · exact (C9_parse_directory_tolerates_bad_files
      ⟨KnowledgeGraph.empty, [], [], [], 0⟩ _).1
      ⟨"a.py", "a", FileContent.good []⟩ (by decide)
  · exact (C9_parse_directory_tolerates_bad_files
      ⟨KnowledgeGraph.empty, [], [], [], 0⟩ _).1
      ⟨"bad.py", "bad", FileContent.bad⟩ (by decide)
  · exact ((C9_parse_directory_tolerates_bad_files
      ⟨KnowledgeGraph.empty, [], [], [], 0⟩ _).2 "c.py").mpr
      (.inr ⟨⟨"c.py", "c", FileContent.good []⟩, by decide, rfl, [], rfl⟩)
  · intro h
    rcases ((C9_parse_directory_tolerates_bad_files
        ⟨KnowledgeGraph.empty, [], [], [], 0⟩ _).2 "bad.py").mp h with
      h0 | ⟨f', hf', hp, ds, hds⟩
    · simp at h0
    · simp only [List.mem_cons, List.not_mem_nil, or_false] at hf'
      rcases hf' with rfl | rfl | rfl
      · simp at hp
      · cases hds
      · simp at hp

/-- C10.  `parse_file` inserts the Module component before `ast.parse`
(python.py:121-134 precede 138-139), so for a not-yet-analyzed file whose
content raises `SyntaxError`:
the call returns no module, the inserted Module component (fresh id
`freshId st.next_id`) remains in the store, the path is not added to the
processed-set, and a second call on the same failing file inserts a second,
distinct Module component with the same file path — both observable through
`get_components_by_file` and `get_component`. -/
theorem C10_failed_parse_leaves_module_and_repeats (st : ParserState)
    (f : PyFile) (hbad : f.content = FileContent.bad)
    (hnot : f.path ∉ st.analyzed_files) :
    (parseFile st f).1 = none ∧
    f.path ∉ (parseFile st f).2.analyzed_files ∧
    (parseFile (parseFile st f).2 f).1 = none ∧
    getComponentsByFile (parseFile (parseFile st f).2 f).2.knowledge_graph f.path
      = getComponentsByFile st.knowledge_graph f.path ++
        [{ name := f.stem, type := "module", file_path := some f.path,
           id := freshId st.next_id },
         { name := f.stem, type := "module", file_path := some f.path,
           id := freshId (st.next_id + 1) }] ∧
    getComponent (parseFile (parseFile st f).2 f).2.knowledge_graph
        (freshId st.next_id)
      = some { name := f.stem, type := "module", file_path := some f.path,
               id := freshId st.next_id } ∧
    getComponent (parseFile (parseFile st f).2 f).2.knowledge_graph
        (freshId (st.next_id + 1))
      = some { name := f.stem, type := "module", file_path := some f.path,
               id := freshId (st.next_id + 1) } := by
  refine ⟨?_, ?_, ?_, ?_, ?_, ?_⟩
  · simp only [parseFile, if_neg hnot, hbad]
  · simp only [parseFile, if_neg hnot, hbad]
    exact hnot
  · simp only [parseFile, if_neg hnot, hbad]
  · simp only [parseFile, if_neg hnot, hbad]
    simp [getComponentsByFile, addComponent, dictGet_dictAppend_self]
  · simp only [parseFile, if_neg hnot, hbad]
    simp only [getComponent, addComponent]
    rw [dictGet_dictSet_ne _ _ _ _ (fun h => by
      have := freshId_injective h
      omega)]
    exact dictGet_dictSet_self _ _ _
  · simp only [parseFile, if_neg hnot, hbad]
    simp only [getComponent, addComponent]
    exact dictGet_dictSet_self _ _ _

/-- C10 witness: a fresh parser over an empty store, given the file
`bad.py` whose content fails to parse, twice. -/
theorem C10_failed_parse_leaves_module_and_repeats_witness :
    (parseFile ⟨KnowledgeGraph.empty, [], [], [], 0⟩
        ⟨"bad.py", "bad", FileContent.bad⟩).1 = none ∧
    "bad.py" ∉ (parseFile ⟨KnowledgeGraph.empty, [], [], [], 0⟩
        ⟨"bad.py", "bad", FileContent.bad⟩).2.analyzed_files ∧
    (parseFile (parseFile ⟨KnowledgeGraph.empty, [], [], [], 0⟩
        ⟨"bad.py", "bad", FileContent.bad⟩).2
        ⟨"bad.py", "bad", FileContent.bad⟩).1 = none ∧
    getComponentsByFile (parseFile (parseFile
        ⟨KnowledgeGraph.empty, [], [], [], 0⟩
        ⟨"bad.py", "bad", FileContent.bad⟩).2
        ⟨"bad.py", "bad", FileContent.bad⟩).2.knowledge_graph "bad.py"
      = getComponentsByFile KnowledgeGraph.empty "bad.py" ++
        [{ name := "bad", type := "module", file_path := some "bad.py",
           id := freshId 0 },
         { name := "bad", type := "module", file_path := some "bad.py",
           id := freshId (0 + 1) }] ∧
    getComponent (parseFile (parseFile ⟨KnowledgeGraph.empty, [], [], [], 0⟩
        ⟨"bad.py", "bad", FileContent.bad⟩).2
        ⟨"bad.py", "bad", FileContent.bad⟩).2.knowledge_graph (freshId 0)
      = some { name := "bad", type := "module", file_path := some "bad.py",
               id := freshId 0 } ∧
    getComponent (parseFile (parseFile ⟨KnowledgeGraph.empty, [], [], [], 0⟩
        ⟨"bad.py", "bad", FileContent.bad⟩).2
        ⟨"bad.py", "bad", FileContent.bad⟩).2.knowledge_graph (freshId (0 + 1))
      = some { name := "bad", type := "module", file_path := some "bad.py",
               id := freshId (0 + 1) } :=
  C10_failed_parse_leaves_module_and_repeats
    ⟨KnowledgeGraph.empty, [], [], [], 0⟩ ⟨"bad.py", "bad", FileContent.bad⟩
    rfl (by simp)

/-- C8.  Duplicate suppression: on any store that holds both endpoints and
at most one relationship with the shared `(source, target, type)` triple
(at most one is what any store reachable through `add_relationship`
can hold), adding `r1` and then a second relationship `r2` with the same
triple succeeds both times, the second call returns the store unchanged (a
no-op, no error), and exactly one relationship with that triple is
stored. -/
theorem C8_duplicate_add_is_noop (g : KnowledgeGraph) (r1 r2 : Relationship)
    (hs : dictContains g.components r1.source_id = true)
    (ht : dictContains g.components r1.target_id = true)
    (hss : r2.source_id = r1.source_id) (htt : r2.target_id = r1.target_id)
    (hty : r2.type = r1.type)
    (hcount : countTriple g r1.source_id r1.target_id r1.type ≤ 1) :
    ∃ g1, addRelationship g r1 = .ok g1 ∧
      addRelationship g1 r2 = .ok g1 ∧
      countTriple g1 r1.source_id r1.target_id r1.type = 1 := by
  by_cases hdup : (g.relationships.any fun rel =>
      decide (rel.source_id = r1.source_id ∧ rel.target_id = r1.target_id ∧
        rel.type = r1.type)) = true
  · refine ⟨g, ?_, ?_, ?_⟩
    · unfold addRelationship
      rw [if_neg (by simp [hs]), if_neg (by simp [ht]), if_pos hdup]
    · unfold addRelationship
      rw [if_neg (by simp [hss, hs]), if_neg (by simp [htt, ht]),
        if_pos (by simpa [hss, htt, hty] using hdup)]
    · have h1 : 0 < countTriple g r1.source_id r1.target_id r1.type := by
        rcases List.any_eq_true.mp hdup with ⟨rel, hmem, hrel⟩
        have hmf : rel ∈ g.relationships.filter (fun rel =>
            decide (rel.source_id = r1.source_id ∧ rel.target_id = r1.target_id ∧
              rel.type = r1.type)) :=
          List.mem_filter.mpr ⟨hmem, hrel⟩
        have := List.length_pos.mpr (List.ne_nil_of_mem hmf)
        simpa [countTriple] using this
      omega
  · refine ⟨{ g with
        relationships := g.relationships ++ [r1]
        outgoing_relationships := dictAppend g.outgoing_relationships r1.source_id r1
        incoming_relationships := dictAppend g.incoming_relationships r1.target_id r1 },
      ?_, ?_, ?_⟩
    · unfold addRelationship
      rw [if_neg (by simp [hs]), if_neg (by simp [ht]), if_neg hdup]
    · unfold addRelationship
      have hc2 : ((g.relationships ++ [r1]).any fun rel =>
          decide (rel.source_id = r2.source_id ∧ rel.target_id = r2.target_id ∧
            rel.type = r2.type)) = true := by
        simp [hss, htt, hty]
      rw [if_neg (by simp [hss, hs]), if_neg (by simp [htt, ht]), if_pos hc2]
    · have h0 : (g.relationships.filter fun rel =>
          decide (rel.source_id = r1.source_id ∧ rel.target_id = r1.target_id ∧
            rel.type = r1.type)) = [] := by
        rw [List.filter_eq_nil_iff]
        intro rel hmem hrel
        exact hdup (List.any_eq_true.mpr ⟨rel, hmem, hrel⟩)
      simp [countTriple, List.filter_append, h0]
      intro a ha h1 h2 h3
      exact hdup (List.any_eq_true.mpr ⟨a, ha, by simp [h1, h2, h3]⟩)

/-- C8 witness: the two-component store with no relationships satisfies
every hypothesis for inserting the a→b `calls` edge twice (two distinct
relationship objects sharing the triple). -/
theorem C8_duplicate_add_is_noop_witness :
    ∃ g1, addRelationship (addComponent (addComponent .empty compA) compB)
        relAB = .ok g1 ∧
      addRelationship g1
        { source_id := "a", target_id := "b", type := "calls", id := "rab2" }
        = .ok g1 ∧
      countTriple g1 "a" "b" "calls" = 1 :=
  C8_duplicate_add_is_noop (addComponent (addComponent .empty compA) compB)
    relAB { source_id := "a", target_id := "b", type := "calls", id := "rab2" }
    (by decide) (by decide) (by decide) (by decide) (by decide) (by decide)

/-- C7: on a store whose outgoing index lists only stored relationships,
whose relationship ids are duplicate-free, and whose relationship targets
are all stored components, `find_path` returns `[]` when either endpoint
id is absent or no directed path over outgoing relationships exists, and
otherwise returns the `(component, relationship)` pairs of a
minimum-hop-count path following outgoing edges only. -/
theorem C7_find_path_shortest (g : KnowledgeGraph) (s t : String)
    (H1 : ∀ kv ∈ g.outgoing_relationships, ∀ r ∈ kv.2, r ∈ g.relationships)
    (H2 : (g.relationships.map Relationship.id).Nodup)
    (H3 : ∀ r ∈ g.relationships, (dictGet g.components r.target_id).isSome = true) :
    ((¬ dictContains g.components s = true ∨ ¬ dictContains g.components t = true) →
        findPath g s t = .ok []) ∧
    (dictContains g.components s = true → dictContains g.components t = true →
      ((∀ p, ¬ EdgePath g s p t) → findPath g s t = .ok []) ∧
      (∀ p0, EdgePath g s p0 t →
        ∃ ids res, EdgePath g s ids t ∧
          (∀ p, EdgePath g s p t → ids.length ≤ p.length) ∧
          findPath g s t = .ok res ∧
          res.map (fun pr => pr.2.id) = ids ∧
          res.length = ids.length ∧
          (∀ pr ∈ res, dictGet g.components pr.2.target_id = some pr.1))) := by
  constructor
  · intro h
    unfold findPath
    rw [if_pos h]
  · intro hs ht
    have hnot : ¬ (¬ dictContains g.components s = true ∨
        ¬ dictContains g.components t = true) := by
      simp [hs, ht]
    have hunf : findPath g s t =
        findPathLoop g t (bfsFuel g) [s] [(s, [])] := by
      unfold findPath
      rw [if_neg hnot]
    have hinv0 : BfsInv g s t [s] [(s, [])] := by
      refine ⟨?_, ?_, ?_, ?_, ?_, ?_, ?_, ?_⟩
      · intro e he
        have he2 := List.mem_singleton.mp he
        subst he2
        exact .refl s
      · intro e he
        have he2 := List.mem_singleton.mp he
        subst he2
        simp
      · simp
      · exact List.pairwise_singleton _ _
      · intro e1 h1 e2 h2
        have h1b := List.mem_singleton.mp h1
        subst h1b
        simp
      · intro e he
        have he2 := List.mem_singleton.mp he
        subst he2
        intro p _
        simp
      · intro u hu
        have hu2 := List.mem_singleton.mp hu
        exact Or.inl ⟨(s, []), List.mem_singleton_self _, hu2.symm⟩
      · intro htV
        have ht2 := List.mem_singleton.mp htV
        exact ⟨(s, []), List.mem_singleton_self _, ht2.symm⟩
    have hfuel : ([(s, [])] : List (String × List String)).length +
        countUnvisited g [s] < bfsFuel g := by
      have hle : countUnvisited g [s] ≤ (allIndexTargets g).length := by
        unfold countUnvisited
        exact List.length_filter_le _ _
      unfold bfsFuel
      simp only [List.length_cons, List.length_nil]
      omega
    rcases findPathLoop_master g s t H1 H2 H3 (bfsFuel g) [s] [(s, [])]
        hinv0 hfuel with
      ⟨ids, res, hids, hmin, heq, hmap, hcomp⟩ | ⟨heq, hnone⟩
    · constructor
      · intro hnp
        exact absurd hids (hnp ids)
      · intro p0 hp0
        refine ⟨ids, res, hids, hmin, ?_, hmap, ?_, hcomp⟩
        · rw [hunf]
          exact heq
        · rw [← hmap]
          simp
    · constructor
      · intro _
        rw [hunf]
        exact heq
      · intro p0 hp0
        exact absurd hp0 (hnone p0)

/-- C7 witness: the four-component chain a→b→c→d satisfies the store
hypotheses; `find_path a d` returns the three `(component, relationship)`
pairs of the unique (hence shortest) 3-hop path. -/
theorem C7_find_path_shortest_witness :
    (∃ ids res, EdgePath graphChain4 "a" ids "d" ∧
      (∀ p, EdgePath graphChain4 "a" p "d" → ids.length ≤ p.length) ∧
      findPath graphChain4 "a" "d" = .ok res ∧
      res.map (fun pr => pr.2.id) = ids ∧
      res.length = ids.length ∧
      (∀ pr ∈ res, dictGet graphChain4.components pr.2.target_id = some pr.1)) ∧
    findPath graphChain4 "a" "d" =
      .ok [(compB, relAB), (compC, relBC), (compD, relCD)] := by
  have hp0 : EdgePath graphChain4 "a" [relAB.id, relBC.id, relCD.id] "d" :=
    .step _ _ relAB _ (by decide)
      (.step _ _ relBC _ (by decide)
        (.step _ _ relCD _ (by decide) (.refl _)))
  exact ⟨((C7_find_path_shortest graphChain4 "a" "d" (by decide) (by decide)
    (by decide)).2 (by decide) (by decide)).2 _ hp0, by decide⟩

end AIToolkit
